import Mathlib

/-!
Shallow embedding of `src/bigint/big_integer.{h,cpp}` (an arbitrary-precision
signed integer in sign-magnitude form: a `sign` flag, `true` = non-negative,
and a vector of 32-bit words, least significant first) together with proofs
and refutations of the specification's claims about it.

Machine integers are modelled as `Nat` with explicit `% 2 ^ 32` (resp.
`% 2 ^ 64`) wherever the C++ narrows or wraps.  Word vectors are `List Nat`,
least-significant first, exactly as `std::vector<uint32_t> dig`.
-/

set_option linter.unusedVariables false

namespace Bigint

/-- The value type of `big_integer`: `sign` (true = non-negative) and the
magnitude words, least significant first (`dig`). -/
structure big_integer where
  sign : Bool
  dig : List Nat
  deriving DecidableEq, Repr

/-- `big_integer()` : default constructor, value `0`. -/
def zeroB : big_integer := ⟨true, [0]⟩

/-- The constant `1` (`big_integer(1)`). -/
def oneB : big_integer := ⟨true, [1]⟩

/-- `big_integer::is_zero`: `dig.size() == 1 && dig[0] == 0`. -/
def is_zero (a : big_integer) : Bool :=
  a.dig.length == 1 && a.dig.headD 0 == 0

/-- `big_integer::positive`. -/
def positive (a : big_integer) : Bool := a.sign

/-- The loop of `big_integer::normalize`, acting on the reversed word list
(most significant first): `while (dig.size() > 1u && dig.back() == 0u) dig.pop_back();`. -/
def popZeros : List Nat → List Nat
  | [] => []
  | [x] => [x]
  | 0 :: x :: xs => popZeros (x :: xs)
  | (x + 1) :: y :: xs => (x + 1) :: y :: xs

/-- `big_integer::normalize`: strip most-significant zero words down to
length one, and force `sign = true` on the canonical zero. -/
def normalize (a : big_integer) : big_integer :=
  let d := (popZeros a.dig.reverse).reverse
  ⟨if d = [0] then true else a.sign, d⟩

/-- `big_integer(bool sign, std::vector<uint32_t> digits)` : the private
constructor, which normalizes. -/
def mkBI (sign : Bool) (digits : List Nat) : big_integer :=
  normalize ⟨sign, digits⟩

/-- The word-comparison loop of `compare`, on reversed (most significant
first) word lists of equal length, oriented by the common sign `s`. -/
def cmpWords : List Nat → List Nat → Bool → Int
  | x :: xs, y :: ys, s =>
    if x < y then (if s then -1 else 1)
    else if y < x then (if s then 1 else -1)
    else cmpWords xs ys s
  | [], _, _ => 0
  | _ :: _, [], _ => 0

/-- `compare(const big_integer &a, const big_integer &b)` : three-way
comparison. -/
def compareB (a b : big_integer) : Int :=
  if b.dig.length < a.dig.length then (if positive a then 1 else -1)
  else if a.dig.length < b.dig.length then (if positive b then -1 else 1)
  else if (positive a : Bool) ≠ positive b then (if positive a then 1 else -1)
  else cmpWords a.dig.reverse b.dig.reverse (positive a)

/-- `operator-` (unary negation): flip the sign unless the value is zero. -/
def negB (a : big_integer) : big_integer :=
  if is_zero a then a else ⟨!a.sign, a.dig⟩

/-- `abs(const big_integer &a)` : `a < 0 ? -a : a`. -/
def absB (a : big_integer) : big_integer :=
  if compareB a zeroB < 0 then negB a else a

/-- `l` truncated or zero-extended to length `n`
(`std::vector::resize(n, 0)`). -/
def padResize (l : List Nat) (n : Nat) : List Nat :=
  l.take n ++ List.replicate (n - l.length) 0

/-- The carry loop of `operator+=` over the resized receiver: word-wise
64-bit sum, low half stored, high half carried.  The C++ loop exits as soon
as the addend is exhausted and the carry is zero, leaving the remaining
(in-range) words unchanged, which coincides with this full scan. -/
def addWords : List Nat → List Nat → Nat → List Nat
  | [], _, _ => []
  | x :: xs, ys, c =>
    (x + ys.headD 0 + c) % 2 ^ 32 :: addWords xs ys.tail ((x + ys.headD 0 + c) / 2 ^ 32)

/-- The same-sign branch of `operator+=`: resize to `max(size, rhs.size) + 1`,
add with carry, normalize. -/
def addSameCore (a rhs : big_integer) : big_integer :=
  normalize ⟨a.sign, addWords (padResize a.dig (max a.dig.length rhs.dig.length + 1)) rhs.dig 0⟩

/-- The borrow loop of `big_integer::difference`: 64-bit signed word
difference, stored as its low 32 bits (two's-complement wrap), borrow
propagated.  `t` is the incoming borrow (0 or 1). -/
def subBorrow : List Nat → List Nat → Nat → List Nat
  | [], _, _ => []
  | x :: xs, ys, t =>
    (x + 2 ^ 33 - ys.headD 0 - t) % 2 ^ 32 ::
      subBorrow xs ys.tail (if x < ys.headD 0 + t then 1 else 0)

/-- `if (!dig.back()) dig.pop_back();` at the end of `difference`. -/
def popBackZero (l : List Nat) : List Nat :=
  if l.getLast? = some 0 then l.dropLast else l

/-- `big_integer::difference(other, shift)`: subtract `other`'s words from
the receiver's words starting at index `shift`, then drop one trailing zero
word if present. -/
def difference (a other : big_integer) (shift : Nat) : big_integer :=
  ⟨a.sign, popBackZero (a.dig.take shift ++ subBorrow (a.dig.drop shift) other.dig 0)⟩

/-- The `temp -= *this` call inside the swap branch of `operator-=`: at that
point the signs agree and `temp`'s magnitude strictly exceeds the
receiver's, so only the `rhs == 0` shortcut and the `difference` branch of
`operator-=` are reachable. -/
def subSwapInner (temp a : big_integer) : big_integer :=
  if compareB a zeroB = 0 then temp
  else normalize (difference temp a 0)

/-- The equal-sign branch of `operator-=` (after the `rhs == 0` shortcut):
either swap (compute `rhs - *this` and negate unless zero) or subtract in
place via `difference` and normalize. -/
def subSame (a rhs : big_integer) : big_integer :=
  if (a.sign = true ∧ compareB a rhs < 0) ∨ (a.sign = false ∧ 0 < compareB a rhs) then
    let temp := subSwapInner rhs a
    if is_zero temp then temp else ⟨!temp.sign, temp.dig⟩
  else normalize (difference a rhs 0)

/-- `operator+=` with the sign-mismatch branch (`*this -= -rhs`) unfolded one
step: after negating the non-zero addend the signs agree, so the delegated
call lands in `subSame`. -/
def addB (a rhs : big_integer) : big_integer :=
  if is_zero rhs then a
  else if a.sign = rhs.sign then addSameCore a rhs
  else subSame a (negB rhs)

/-- `operator-=` with the sign-mismatch branch (`*this += -rhs`) unfolded one
step: after negating the non-zero subtrahend the signs agree, so the
delegated call lands in `addSameCore`. -/
def subB (a rhs : big_integer) : big_integer :=
  if compareB rhs zeroB = 0 then a
  else if a.sign = rhs.sign then subSame a rhs
  else addSameCore a (negB rhs)

/-- `operator++` : `*this += 1`. -/
def incB (a : big_integer) : big_integer := addB a oneB

/-- `operator--` : `*this -= 1`. -/
def decB (a : big_integer) : big_integer := subB a oneB

/-- The carry-propagation loop inside `operator*=`
(`for (carry_pos = k; carry_pos < dig.size() && carry != 0; ...)`), applied
to the suffix of the word array from `carry_pos` on: returns the updated
suffix and the carry left over if the array ran out (the loop drops it). -/
def rippleCarry : List Nat → Nat → List Nat × Nat
  | l, 0 => (l, 0)
  | [], c => ([], c)
  | x :: xs, c =>
    ((x + c) % 2 ^ 32 :: (rippleCarry xs ((x + c) / 2 ^ 32)).1,
      (rippleCarry xs ((x + c) / 2 ^ 32)).2)

/-- Carry propagation into positions `pos, pos+1, ...` of the word array. -/
def rippleAt (l : List Nat) (pos c : Nat) : List Nat × Nat :=
  (l.take pos ++ (rippleCarry (l.drop pos) c).1, (rippleCarry (l.drop pos) c).2)

/-- The inner loop of `operator*=` for output position `k - 1`: iterate
`j = 0 .. min(k, rhs.size()) - 1` with `i = k - 1 - j`, accumulating
`cur`/`carry` from 64-bit word products and rippling each escaped carry into
positions `k` and above.  `fuel` counts the remaining iterations and
`carry` is the running carry variable.  Returns the updated array and the
final `cur_value`. -/
def mulInner (rhsd : List Nat) (k : Nat) : Nat → List Nat → Nat → Nat → Nat → List Nat × Nat
  | 0, dig, _, cur, _ => (dig, cur)
  | fuel + 1, dig, j, cur, carry =>
    mulInner rhsd k fuel
      (rippleAt dig k ((dig.getD (k - 1 - j) 0 * rhsd.getD j 0 + carry + cur) / 2 ^ 32)).1
      (j + 1)
      ((dig.getD (k - 1 - j) 0 * rhsd.getD j 0 + carry + cur) % 2 ^ 32)
      (rippleAt dig k ((dig.getD (k - 1 - j) 0 * rhsd.getD j 0 + carry + cur) / 2 ^ 32)).2

/-- One iteration of the outer loop of `operator*=` (output position `k - 1`):
run the inner loop, then store `cur_value` into `dig[k - 1]`. -/
def mulStep (rhsd dig : List Nat) (k : Nat) : List Nat :=
  ((mulInner rhsd k (min k rhsd.length) dig 0 0 0).1).set (k - 1)
    (mulInner rhsd k (min k rhsd.length) dig 0 0 0).2

/-- The outer loop of `operator*=`: `for (k = dig.size(); k > 0; k--)`. -/
def mulOuter (rhsd : List Nat) : Nat → List Nat → List Nat
  | 0, dig => dig
  | k + 1, dig => mulOuter rhsd k (mulStep rhsd dig (k + 1))

/-- `operator*=`: resize to `size + rhs.size`, run the in-place schoolbook
loop from the top position down, set the sign to the signs' equality, and
normalize. -/
def mulB (a rhs : big_integer) : big_integer :=
  normalize ⟨a.sign == rhs.sign,
    mulOuter rhs.dig (a.dig.length + rhs.dig.length) (a.dig ++ List.replicate rhs.dig.length 0)⟩

/-- The loop of `div_mod_short`, over the receiver's words most significant
first.  `rem` is the 64-bit `remainder` variable: shifts wrap at `2 ^ 64`,
the quotient word and the 32-bit product `ratio * rhs` wrap at `2 ^ 32`.
Returns the quotient words (most significant first) and the final `rem`. -/
def dmsLoop (w : Nat) : List Nat → Nat → List Nat × Nat
  | [], rem => ([], rem)
  | d :: ds, rem =>
    let r1 := (rem * 2 ^ 32 % 2 ^ 64 + d) % 2 ^ 64
    let q := r1 / w % 2 ^ 32
    let r2 := (r1 + 2 ^ 64 - q * w % 2 ^ 32) % 2 ^ 64
    (q :: (dmsLoop w ds r2).1, (dmsLoop w ds r2).2)

/-- `big_integer::div_mod_short(uint32_t rhs)`: short division of the
magnitude by a single word; the quotient is normalized, the returned
remainder is the low 32 bits of the 64-bit `remainder` variable. -/
def div_mod_short (a : big_integer) (w : Nat) : big_integer × Nat :=
  (normalize ⟨true, (dmsLoop w a.dig.reverse 0).1.reverse⟩, (dmsLoop w a.dig.reverse 0).2 % 2 ^ 32)

/-- The loop of `big_integer::is_smaller(other, other_size)`: walk the
receiver's words from most significant down (`i = 1 .. dig.size()`),
comparing against `other`'s word at `other_size - i` (taken as `0` when that
`size_t` index underflows or is out of range); on the first difference
return `dig[size - i] >= other_dig`, and `true` when no difference. -/
def isSmallerGo (odig : List Nat) (osz : Nat) : List Nat → Nat → Bool
  | [], _ => true
  | x :: xs, i =>
    if x = (if i ≤ osz ∧ osz - i < odig.length then odig.getD (osz - i) 0 else 0) then
      isSmallerGo odig osz xs (i + 1)
    else decide ((if i ≤ osz ∧ osz - i < odig.length then odig.getD (osz - i) 0 else 0) ≤ x)

/-- `big_integer::is_smaller` (which, despite the name, returns whether the
receiver's top-aligned window is greater than or equal to `other`). -/
def is_smaller (a other : big_integer) (other_size : Nat) : Bool :=
  isSmallerGo other.dig other_size a.dig.reverse 1

/-- The loop of `div_mod_long`: one iteration per quotient position `j`
(descending), `it` iterations in all.  Each iteration estimates the quotient
word from the top three remainder words and the two-word `denominator`,
truncates it to 32 bits, corrects it at most once, stores it and subtracts
`to_sub` from the remainder window in place.  The raw (pre-cast) estimates
are also accumulated, most significant position first, for analysis. -/
def dmlLoop (rhs_abs : big_integer) (den m : Nat) :
    Nat → List Nat → List Nat → Nat → List Nat → List Nat × List Nat × List Nat
  | 0, dig, qdig, _, ests => (dig, qdig, ests)
  | it + 1, dig, qdig, j, ests =>
    let num := dig.getD (dig.length - 1) 0 * 2 ^ 64 + dig.getD (dig.length - 2) 0 * 2 ^ 32 +
      dig.getD (dig.length - 3) 0
    let rat := num / den % 2 ^ 32
    let to_sub := mulB rhs_abs ⟨true, [rat]⟩
    let corr := !is_smaller ⟨true, dig⟩ to_sub m
    let rat2 := if corr then (rat + 2 ^ 32 - 1) % 2 ^ 32 else rat
    let to_sub2 := if corr then subB to_sub rhs_abs else to_sub
    dmlLoop rhs_abs den m it
      (difference ⟨true, dig⟩ to_sub2 (dig.length - m)).dig
      (qdig.set j rat2) (j - 1) (ests ++ [num / den])

/-- `big_integer::div_mod_long(rhs)`: returns the normalized quotient, the
normalized remainder (the receiver's final state) and, as an extra
instrumentation output, the list of raw per-position quotient estimates
`numerator / denominator`. -/
def div_mod_long (a rhs : big_integer) : big_integer × big_integer × List Nat :=
  let rhs_abs := absB rhs
  let qlen := a.dig.length - rhs.dig.length + 1
  let dig0 := a.dig ++ [0]
  let den := rhs_abs.dig.getD (rhs_abs.dig.length - 1) 0 * 2 ^ 32 +
    rhs_abs.dig.getD (rhs_abs.dig.length - 2) 0
  let r := dmlLoop rhs_abs den (rhs.dig.length + 1) (dig0.length - rhs.dig.length)
    dig0 (List.replicate qlen 0) (qlen - 1) []
  (normalize ⟨a.sign == rhs.sign, r.2.1⟩, normalize ⟨a.sign, r.1⟩, r.2.2)

/-- The body of `operator/=` after the divide-by-zero check. -/
def divCore (a rhs : big_integer) : big_integer :=
  if a.dig.length < rhs.dig.length ∨ is_smaller a rhs a.dig.length = false then zeroB
  else if rhs.dig.length = 1 then
    if a.sign == rhs.sign then (div_mod_short a (rhs.dig.headD 0)).1
    else negB (div_mod_short a (rhs.dig.headD 0)).1
  else (div_mod_long a rhs).1

/-- `operator/=`: `none` models the `throw std::range_error` on a zero
divisor. -/
def divB (a rhs : big_integer) : Option big_integer :=
  if is_zero rhs then none else some (divCore a rhs)

/-- The body of `operator%=` after the divide-by-zero check: short remainder
with the dividend's sign for single-word divisors, otherwise
`*this - *this / rhs * rhs`. -/
def modCore (a rhs : big_integer) : big_integer :=
  if rhs.dig.length = 1 then
    if a.sign then ⟨true, [(div_mod_short a (rhs.dig.headD 0)).2]⟩
    else negB ⟨true, [(div_mod_short a (rhs.dig.headD 0)).2]⟩
  else subB a (mulB (divCore a rhs) rhs)

/-- `operator%=`: `none` models the `throw std::range_error` on a zero
divisor. -/
def modB (a rhs : big_integer) : Option big_integer :=
  if is_zero rhs then none else some (modCore a rhs)

/-- `operator/=` as a state transformer on the receiver: first component is
the returned value (`none` = exception thrown), the second is the receiver's
state when the call ends, normally or by throw.  The zero test is the
function's first statement, before any write to the receiver. -/
def divAssignRun (a rhs : big_integer) : Option big_integer × big_integer :=
  if is_zero rhs then (none, a) else (some (divCore a rhs), divCore a rhs)

/-- `operator%=` as a state transformer on the receiver, like
`divAssignRun`. -/
def modAssignRun (a rhs : big_integer) : Option big_integer × big_integer :=
  if is_zero rhs then (none, a) else (some (modCore a rhs), modCore a rhs)

/-- `big_integer::transform_to_compl2(a, new_size)`: a non-negative value is
resized (zero-extended) to `new_size` words; a negative one is incremented
(`++a`), resized, and bitwise inverted (on a 32-bit word `~x` is
`2 ^ 32 - 1 - x`), yielding its two's complement at width `new_size`. -/
def transform_to_compl2 (a : big_integer) (new_size : Nat) : big_integer :=
  if a.sign = false then
    ⟨(incB a).sign, (padResize (incB a).dig new_size).map (fun x => 2 ^ 32 - 1 - x)⟩
  else ⟨a.sign, padResize a.dig new_size⟩

/-- `bit_function_applier(lhs, rhs, bit_function)`: transform both operands
to two's complement at width `max + 1`, combine word-wise, derive the result
sign from the bit function on the (complemented) sign bits, invert the words
of a negative result, build through the normalizing constructor and
decrement a negative result back to sign-magnitude. -/
def bit_function_applier (f : Nat → Nat → Nat) (lhs rhs : big_integer) : big_integer :=
  let result_len := max lhs.dig.length rhs.dig.length + 1
  let l := transform_to_compl2 lhs result_len
  let r := transform_to_compl2 rhs result_len
  let result_sign := f (if l.sign then 0 else 1) (if r.sign then 0 else 1) == 0
  let result_num := (List.range result_len).map fun i =>
    if result_sign then f (l.dig.getD i 0) (r.dig.getD i 0)
    else 2 ^ 32 - 1 - f (l.dig.getD i 0) (r.dig.getD i 0)
  let result := mkBI result_sign result_num
  if result_sign then result else decB result

/-- `operator&=`. -/
def andB (a b : big_integer) : big_integer := bit_function_applier Nat.land a b

/-- `operator|=`. -/
def orB (a b : big_integer) : big_integer := bit_function_applier Nat.lor a b

/-- `operator^=`. -/
def xorB (a b : big_integer) : big_integer := bit_function_applier Nat.xor a b

/-- One output word of the reassembly loop of `bit_shift`, for a source word
array `src` (the receiver's magnitude: the preceding
`transform_to_compl2(*this, size())` call sees `sign` already forced to
`true` and leaves `dig` unchanged).  `start_bit / 32` and `end_bit / 32` are
C++ signed divisions, truncated toward zero, but both guards fire exactly on
the negative cases (which arise only when `shift >= 0`), so the `Int.toNat`
of a guarded-non-negative bit index is faithful.  `cnt` is
`(32 - shift % 32) % 32` under C++ `%` (sign of the dividend). -/
def shiftWord (src : List Nat) (shift : Int) (i : Nat) : Nat :=
  let start_bit : Int := 32 * i - shift
  let end_bit : Int := 32 * (i + 1) - 1 - shift
  let cnt : Nat := if 0 ≤ shift then (32 - shift.toNat % 32) % 32 else shift.natAbs % 32
  let left_block : Nat :=
    if (start_bit < 0 ∧ 0 ≤ shift) ∨ src.length ≤ start_bit.toNat / 32 then 0
    else src.getD (start_bit.toNat / 32) 0
  let right_block : Nat :=
    if (end_bit < 0 ∧ 0 ≤ shift) ∨ src.length ≤ end_bit.toNat / 32 then 0
    else src.getD (end_bit.toNat / 32) 0
  (if cnt ≠ 0 then right_block % 2 ^ cnt * 2 ^ (32 - cnt) else 0) + left_block / 2 ^ cnt

/-- `big_integer::bit_shift(shift)`: copy the receiver through the
normalizing constructor, enlarge the copy by `shift / (32 - 1) + 2` words for
a left shift, reassemble every output word from the magnitude, decrement a
negative right-shift result, and normalize. -/
def bit_shift (a : big_integer) (shift : Int) : big_integer :=
  let shifted := mkBI a.sign a.dig
  let L := if 0 < shift then shifted.dig.length + shift.toNat / 31 + 2 else shifted.dig.length
  let words := (List.range L).map (shiftWord a.dig shift)
  let shifted2 : big_integer := ⟨shifted.sign, words⟩
  normalize (if shift < 0 ∧ shifted2.sign = false then decB shifted2 else shifted2)

/-- `operator<<=`. -/
def shlB (a : big_integer) (k : Nat) : big_integer := bit_shift a (k : Int)

/-- `operator>>=`. -/
def shrB (a : big_integer) (k : Nat) : big_integer := bit_shift a (-(k : Int))

/-- `big_integer(int a)`: sign from the value's polarity, one magnitude
word. -/
def ofInt (a : Int) : big_integer := ⟨decide (0 ≤ a), [a.natAbs % 2 ^ 32]⟩

/-- `isdigit` on an ASCII character. -/
def isdigitC (c : Char) : Bool := decide ('0' ≤ c) && decide (c ≤ '9')

/-- The inner chunk loop of `big_integer(const std::string &)`: consume up to
`len` characters, folding `to_mult` and `to_add` (both `uint32_t`); a
non-digit raises (`none`).  Returns the rest of the input and the two
accumulators. -/
def chunkStep : Nat → List Char → Nat → Nat → Option (List Char × Nat × Nat)
  | 0, cs, tm, ta => some (cs, tm, ta)
  | _ + 1, [], tm, ta => some ([], tm, ta)
  | len + 1, c :: cs, tm, ta =>
    if isdigitC c then
      chunkStep len cs (tm * 10 % 2 ^ 32) ((10 * ta + (c.toNat - 48)) % 2 ^ 32)
    else none

/-- The outer loop of `big_integer(const std::string &)`: fold nine-character
chunks into the accumulator by `*this *= to_mult; *this += to_add`.  `fuel`
bounds the iteration count (each chunk consumes at least one character). -/
def parseLoop : Nat → List Char → big_integer → Option big_integer
  | _, [], acc => some acc
  | 0, _ :: _, _ => none
  | fuel + 1, c :: cs, acc =>
    match chunkStep 9 (c :: cs) 1 0 with
    | none => none
    | some (rest, tm, ta) => parseLoop fuel rest (addB (mulB acc ⟨true, [tm]⟩) ⟨true, [ta]⟩)

/-- `big_integer(const std::string &str)`: `none` models the throws on an
empty string and on a non-digit character; otherwise parse the digits after
an optional sign, set the sign from the first character, and force `true` on
zero. -/
def ofString (s : List Char) : Option big_integer :=
  match s with
  | [] => none
  | c :: cs =>
    if c ≠ '-' ∧ c ≠ '+' ∧ isdigitC c = false then none
    else
      match parseLoop (s.length + 1) (if isdigitC c then c :: cs else cs) zeroB with
      | none => none
      | some v =>
        let v1 : big_integer := ⟨c ≠ '-', v.dig⟩
        some (if is_zero v1 then ⟨true, v1.dig⟩ else v1)

/-- `'0' + n` for a digit value `n < 10`. -/
def decDigit (n : Nat) : Char := Char.ofNat (48 + n)

/-- The digits of `n` in base ten, least significant first
(`std::to_string` reversed); `fuel` bounds the digit count. -/
def toDecRev : Nat → Nat → List Char
  | 0, _ => []
  | fuel + 1, n => if n < 10 then [decDigit n] else decDigit (n % 10) :: toDecRev fuel (n / 10)

/-- The do-while loop of `to_string`: peel base-`10 ^ 9` chunks with
`div_mod_short`, append each chunk's digits (padded on the right, in the
reversed accumulator, by the zeros the previous chunk was short of nine) and
stop when the quotient compares equal to zero.  `res` is the accumulated
`result` string in C++ append order. -/
def toStringLoop : Nat → big_integer → Nat → List Char → List Char
  | 0, _, _, res => res
  | fuel + 1, a, nz, res =>
    let dm := div_mod_short a 1000000000
    let d := (toDecRev 10 dm.2).reverse
    let res2 := res ++ (d ++ List.replicate nz '0').reverse
    if compareB dm.1 zeroB = 0 then res2 else toStringLoop fuel dm.1 (9 - d.length) res2

/-- `to_string(big_integer a)`: chunked decimal serialization; the sign is
appended last and the whole string reversed. -/
def to_string (a : big_integer) : List Char :=
  let sgn : List Char := if positive a then [] else ['-']
  let a0 := absB a
  (toStringLoop (2 * a0.dig.length + 2) a0 0 [] ++ sgn).reverse

/-! ### Abstraction: values and the representation invariant -/

/-- The magnitude denoted by a word list, least significant first. -/
def magVal : List Nat → Nat
  | [] => 0
  | x :: xs => x + 2 ^ 32 * magVal xs

/-- The integer a `big_integer` denotes. -/
def val (a : big_integer) : Int :=
  if a.sign then (magVal a.dig : Int) else -(magVal a.dig : Int)

/-- All words are in 32-bit range. -/
def boundedW (l : List Nat) : Prop := ∀ x ∈ l, x < 2 ^ 32

instance : ∀ l, Decidable (boundedW l) := fun l => List.decidableBAll _ l

/-- A word list in canonical form: non-empty, in-range words, no
most-significant zero word except the single-word zero. -/
def NormList (l : List Nat) : Prop :=
  l ≠ [] ∧ boundedW l ∧ (l.getLast? = some 0 → l = [0])

instance : ∀ l, Decidable (NormList l) := fun l => by unfold NormList; infer_instance

/-- The representation invariant of `big_integer`: canonical magnitude and no
negative zero. -/
def WfB (a : big_integer) : Prop :=
  NormList a.dig ∧ (a.dig = [0] → a.sign = true)

instance : ∀ a, Decidable (WfB a) := fun a => by unfold WfB; infer_instance

/-- The numeric value of a decimal digit character. -/
def dval (c : Char) : Nat := c.toNat - 48

/-- The value of a decimal digit string, most significant first (the fold
`10 * acc + digit` that both the parser and ordinary positional notation
perform). -/
def decVal (l : List Char) : Nat := l.foldl (fun acc c => 10 * acc + dval c) 0

/-- The canonical decimal digit string of a number, most significant first
(enough fuel for `toDecRev` to emit every digit). -/
def decChars (n : Nat) : List Char := (toDecRev (n + 1) n).reverse

/-- The specification's `canonical(s)` for an input matching `[+-]?[0-9]+`:
drop the sign, strip leading zeros (keeping a single `0` when nothing is
left), and put a leading `-` back exactly when the value is negative.  This
definition is modelled on the specification's words, for comparison with the
source's `to_string`/constructor pipeline. -/
def canonicalStr (c : Char) (cs : List Char) : List Char :=
  let ds := if isdigitC c then c :: cs else cs
  let body := ds.dropWhile (fun x => x = '0')
  let body2 := if body = [] then ['0'] else body
  if c = '-' ∧ body ≠ [] then '-' :: body2 else body2

theorem magVal_append : ∀ l1 l2 : List Nat,
    magVal (l1 ++ l2) = magVal l1 + 2 ^ (32 * l1.length) * magVal l2
  | [], l2 => by simp [magVal]
  | x :: xs, l2 => by
    rw [List.cons_append, magVal, magVal_append xs l2, magVal, List.length_cons]
    have h : 32 * (xs.length + 1) = 32 * xs.length + 32 := by ring
    rw [h, pow_add]
    ring

theorem magVal_replicate (n : Nat) : magVal (List.replicate n 0) = 0 := by
  induction n with
  | zero => rfl
  | succ k ih => simp [List.replicate_succ, magVal, ih]

theorem magVal_lt (l : List Nat) (h : boundedW l) : magVal l < 2 ^ (32 * l.length) := by
  induction l with
  | nil => simp [magVal]
  | cons x xs ih =>
    have hx : x < 2 ^ 32 := h x (List.mem_cons_self _ _)
    have hxs : magVal xs < 2 ^ (32 * xs.length) := ih fun y hy => h y (List.mem_cons_of_mem _ hy)
    simp only [magVal, List.length_cons]
    calc x + 2 ^ 32 * magVal xs < 2 ^ 32 + 2 ^ 32 * magVal xs := by omega
    _ ≤ 2 ^ 32 * (magVal xs + 1) := by ring_nf; omega
    _ ≤ 2 ^ 32 * 2 ^ (32 * xs.length) := by
        exact Nat.mul_le_mul_left _ (by omega)
    _ = 2 ^ (32 * (xs.length + 1)) := by rw [← pow_add]; ring_nf

theorem magVal_eq_zero (l : List Nat) (h : magVal l = 0) : ∀ x ∈ l, x = 0 := by
  induction l with
  | nil => simp
  | cons x xs ih =>
    simp only [magVal] at h
    intro y hy
    rcases List.mem_cons.1 hy with rfl | hy
    · omega
    · exact ih (by omega) y hy

theorem magVal_pos_of_ne (l : List Nat) (x : Nat) (hx : x ∈ l) (hne : x ≠ 0) :
    0 < magVal l := by
  by_contra h
  exact hne (magVal_eq_zero l (by omega) x hx)

theorem boundedW_append (l1 l2 : List Nat) :
    boundedW (l1 ++ l2) ↔ boundedW l1 ∧ boundedW l2 := by
  constructor
  · intro h
    exact ⟨fun x hx => h x (List.mem_append_left _ hx), fun x hx => h x (List.mem_append_right _ hx)⟩
  · rintro ⟨h1, h2⟩ x hx
    rcases List.mem_append.1 hx with hx | hx
    · exact h1 x hx
    · exact h2 x hx

theorem boundedW_replicate (n : Nat) : boundedW (List.replicate n 0) := by
  intro x hx
  rw [List.eq_of_mem_replicate hx]
  norm_num

theorem boundedW_reverse (l : List Nat) : boundedW l.reverse ↔ boundedW l := by
  constructor <;> intro h x hx
  · exact h x (List.mem_reverse.2 hx)
  · exact h x (List.mem_reverse.1 hx)

/-- `is_zero` decides exactly `dig = [0]`. -/
theorem is_zero_iff (a : big_integer) : is_zero a = true ↔ a.dig = [0] := by
  rcases a with ⟨s, d⟩
  match d with
  | [] => simp [is_zero]
  | [x] => simp [is_zero, List.headD]
  | x :: y :: t => simp [is_zero]

theorem popZeros_magVal : ∀ r : List Nat, magVal (popZeros r).reverse = magVal r.reverse
  | [] => rfl
  | [x] => by rw [popZeros]
  | 0 :: y :: t => by
    rw [popZeros, popZeros_magVal (y :: t)]
    simp [magVal_append, magVal]
  | (x + 1) :: y :: t => by rw [popZeros]

theorem popZeros_ne_nil : ∀ r : List Nat, r ≠ [] → popZeros r ≠ []
  | [x], _ => by simp [popZeros]
  | 0 :: y :: t, _ => by
    rw [popZeros]
    exact popZeros_ne_nil (y :: t) (List.cons_ne_nil y t)
  | (x + 1) :: y :: t, _ => by rw [popZeros]; exact List.cons_ne_nil _ _

theorem popZeros_head : ∀ r : List Nat,
    popZeros r = [] ∨ popZeros r = [0] ∨ ∃ x t, popZeros r = x :: t ∧ x ≠ 0
  | [] => Or.inl rfl
  | [0] => Or.inr (Or.inl rfl)
  | [x + 1] => Or.inr (Or.inr ⟨x + 1, [], by simp [popZeros]⟩)
  | 0 :: y :: t => by rw [popZeros]; exact popZeros_head (y :: t)
  | (x + 1) :: y :: t => Or.inr (Or.inr ⟨x + 1, y :: t, by rw [popZeros], by omega⟩)

theorem popZeros_sublist : ∀ r : List Nat, (popZeros r).Sublist r
  | [] => by simp [popZeros]
  | [x] => by simp [popZeros]
  | 0 :: y :: t => by
    rw [popZeros]
    exact (popZeros_sublist (y :: t)).cons _
  | (x + 1) :: y :: t => by rw [popZeros]

theorem normalize_dig (a : big_integer) :
    (normalize a).dig = (popZeros a.dig.reverse).reverse := rfl

theorem normalize_magVal (a : big_integer) : magVal (normalize a).dig = magVal a.dig := by
  rw [normalize_dig, popZeros_magVal, List.reverse_reverse]

theorem normalize_NormList (a : big_integer) (hne : a.dig ≠ []) (hb : boundedW a.dig) :
    NormList (normalize a).dig := by
  rw [normalize_dig]
  refine ⟨?_, ?_, ?_⟩
  · simp only [ne_eq, List.reverse_eq_nil_iff]
    exact popZeros_ne_nil _ (by simpa using hne)
  · intro x hx
    exact hb x (List.mem_reverse.1 ((popZeros_sublist a.dig.reverse).mem (List.mem_reverse.1 hx)))
  · intro hlast
    rcases popZeros_head a.dig.reverse with h | h | ⟨x, t, h, hx⟩
    · exact absurd h (popZeros_ne_nil _ (by simpa using hne))
    · simp [h]
    · rw [h, List.getLast?_reverse] at hlast
      simp at hlast
      omega

theorem normalize_sign (s : Bool) (d : List Nat) :
    (normalize ⟨s, d⟩).sign = if (normalize ⟨s, d⟩).dig = [0] then true else s := rfl

theorem normalize_wf (s : Bool) (d : List Nat) (hne : d ≠ []) (hb : boundedW d) :
    WfB (normalize ⟨s, d⟩) := by
  refine ⟨normalize_NormList _ hne hb, ?_⟩
  intro h0
  rw [normalize_sign, if_pos h0]

theorem normalize_sign_of_magVal_ne (s : Bool) (d : List Nat) (h : magVal d ≠ 0) :
    (normalize ⟨s, d⟩).sign = s := by
  rw [normalize_sign, if_neg]
  intro hc
  apply h
  rw [← normalize_magVal ⟨s, d⟩, hc]
  rfl

/-- A canonical word list is determined by its magnitude. -/
theorem norm_uniq : ∀ l l' : List Nat, NormList l → NormList l' →
    magVal l = magVal l' → l = l'
  | [], _, h, _, _ => absurd rfl h.1
  | _ :: _, [], _, h', _ => absurd rfl h'.1
  | x :: xs, y :: ys, h, h', hv => by
    have hx : x < 2 ^ 32 := h.2.1 x (List.mem_cons_self _ _)
    have hy : y < 2 ^ 32 := h'.2.1 y (List.mem_cons_self _ _)
    simp only [magVal] at hv
    have hxy : x = y := by omega
    have hm : magVal xs = magVal ys := by omega
    subst hxy
    match xs, ys with
    | [], [] => rfl
    | [], b :: bs =>
      exfalso
      have hz : ∀ z ∈ b :: bs, z = 0 := magVal_eq_zero _ (by simpa [magVal] using hm.symm)
      have hlast : (x :: b :: bs).getLast? = some 0 := by
        rw [List.getLast?_cons_cons]
        rw [List.getLast?_eq_getLast _ (List.cons_ne_nil b bs)]
        exact congrArg some (hz _ (List.getLast_mem _))
      have := h'.2.2 hlast
      simp at this
    | a :: as, [] =>
      exfalso
      have hz : ∀ z ∈ a :: as, z = 0 := magVal_eq_zero _ (by simpa [magVal] using hm)
      have hlast : (x :: a :: as).getLast? = some 0 := by
        rw [List.getLast?_cons_cons]
        rw [List.getLast?_eq_getLast _ (List.cons_ne_nil a as)]
        exact congrArg some (hz _ (List.getLast_mem _))
      have := h.2.2 hlast
      simp at this
    | a :: as, b :: bs =>
      have htail : (a :: as) = (b :: bs) := by
        apply norm_uniq
        · refine ⟨List.cons_ne_nil _ _, fun z hz => h.2.1 z (List.mem_cons_of_mem _ hz), ?_⟩
          intro hl
          have : (x :: a :: as).getLast? = some 0 := by
            rw [List.getLast?_cons_cons]; exact hl ▸ rfl
          have := h.2.2 this
          simp at this
        · refine ⟨List.cons_ne_nil _ _, fun z hz => h'.2.1 z (List.mem_cons_of_mem _ hz), ?_⟩
          intro hl
          have : (x :: b :: bs).getLast? = some 0 := by
            rw [List.getLast?_cons_cons]; exact hl ▸ rfl
          have := h'.2.2 this
          simp at this
        · exact hm
      rw [htail]

/-- Normalizing any bounded word list with the right magnitude and sign
reproduces a well-formed value. -/
theorem normalize_eq (s : Bool) (d : List Nat) (c : big_integer) (hne : d ≠ [])
    (hb : boundedW d) (hc : WfB c) (hv : magVal d = magVal c.dig)
    (hs : magVal d = 0 ∨ s = c.sign) : normalize ⟨s, d⟩ = c := by
  have hdig : (normalize ⟨s, d⟩).dig = c.dig := by
    apply norm_uniq _ _ (normalize_NormList _ hne hb) hc.1
    rw [normalize_magVal]
    exact hv
  rcases c with ⟨cs, cd⟩
  have hsign : (normalize ⟨s, d⟩).sign = cs := by
    by_cases h0 : (normalize ⟨s, d⟩).dig = [0]
    · rw [normalize_sign, if_pos h0]
      exact (hc.2 (by rw [← hdig, h0])).symm
    · rw [normalize_sign, if_neg h0]
      rcases hs with hs | hs
      · exfalso
        apply h0
        rcases hc with ⟨⟨hcne, hcb, hcl⟩, hcz⟩
        have hcd : cd = [0] := by
          apply hcl
          match cd, hcne with
          | c0 :: cr, _ =>
            rw [List.getLast?_eq_getLast _ (List.cons_ne_nil c0 cr)]
            exact congrArg some (magVal_eq_zero _ (by rw [← hv, hs]) _ (List.getLast_mem _))
        rw [hdig]
        exact hcd
      · exact hs
  rcases hne2 : normalize ⟨s, d⟩ with ⟨ns, nd⟩
  simp only [hne2] at hdig hsign
  simp [hdig, hsign]

theorem normalize_eq_self (a : big_integer) (h : WfB a) : normalize a = a := by
  rcases a with ⟨s, d⟩
  exact normalize_eq s d ⟨s, d⟩ h.1.1 h.1.2.1 h rfl (Or.inr rfl)

theorem cmpWords_self : ∀ (l : List Nat) (s : Bool), cmpWords l l s = 0
  | [], _ => rfl
  | x :: xs, s => by
    rw [cmpWords]
    simp only [lt_irrefl, if_false]
    exact cmpWords_self xs s

theorem compare_self (a : big_integer) : compareB a a = 0 := by
  unfold compareB
  simp [cmpWords_self]

theorem is_zero_magVal (a : big_integer) (h : WfB a) : is_zero a = true ↔ magVal a.dig = 0 := by
  rw [is_zero_iff]
  constructor
  · intro h0
    rw [h0]
    rfl
  · intro h0
    rcases h with ⟨⟨hne, hb, hl⟩, _⟩
    apply hl
    match hd : a.dig, hne with
    | c :: cs, _ =>
      rw [List.getLast?_eq_getLast _ (List.cons_ne_nil c cs)]
      exact congrArg some (magVal_eq_zero _ (hd ▸ h0) _ (List.getLast_mem _))

theorem compare_zero_cases (a : big_integer) (h : WfB a) :
    (a.sign = false → compareB a zeroB = -1) ∧
    (a.sign = true → magVal a.dig ≠ 0 → compareB a zeroB = 1) ∧
    (magVal a.dig = 0 → compareB a zeroB = 0) := by
  have hdig0 : a.dig = [0] ↔ magVal a.dig = 0 := by
    rw [← is_zero_iff]
    exact is_zero_magVal a h
  rcases a with ⟨s, d⟩
  match d, h.1.1 with
  | [x], _ =>
    refine ⟨?_, ?_, ?_⟩
    · intro hs
      subst hs
      simp [compareB, zeroB, positive]
    · intro hs hnz
      subst hs
      have hx : x ≠ 0 := by
        intro h0
        exact hnz (by simp [h0, magVal])
      simp only [compareB, zeroB, positive]
      norm_num
      rw [cmpWords]
      simp [Nat.pos_of_ne_zero hx]
    · intro h0
      have hx : x = 0 := by
        have := magVal_eq_zero _ h0 x (by simp)
        exact this
      subst hx
      have hs : s = true := h.2 rfl
      subst hs
      simp [compareB, zeroB, positive, cmpWords]
  | x :: y :: t, _ =>
    have hlen : (1 : Nat) < (x :: y :: t).length := by simp
    refine ⟨?_, ?_, ?_⟩
    · intro hs
      subst hs
      simp only [compareB, zeroB, positive]
      rw [if_pos (by simpa using hlen)]
      rfl
    · intro hs hnz
      subst hs
      simp only [compareB, zeroB, positive]
      rw [if_pos (by simpa using hlen)]
      simp
    · intro h0
      exfalso
      have := hdig0.2 h0
      simp at this

theorem compare_zero_lt (a : big_integer) (h : WfB a) :
    compareB a zeroB < 0 ↔ a.sign = false := by
  obtain ⟨h1, h2, h3⟩ := compare_zero_cases a h
  constructor
  · intro hlt
    by_contra hs
    have hs' : a.sign = true := by
      cases hsa : a.sign
      · exact absurd hsa hs
      · rfl
    by_cases hz : magVal a.dig = 0
    · rw [h3 hz] at hlt
      omega
    · rw [h2 hs' hz] at hlt
      omega
  · intro hs
    rw [h1 hs]
    omega

theorem compare_zero_eq (a : big_integer) (h : WfB a) :
    compareB a zeroB = 0 ↔ magVal a.dig = 0 := by
  obtain ⟨h1, h2, h3⟩ := compare_zero_cases a h
  constructor
  · intro heq
    by_contra hz
    cases hsa : a.sign
    · rw [h1 hsa] at heq
      omega
    · rw [h2 hsa hz] at heq
      omega
  · exact h3

theorem wf_sign_false_magVal (a : big_integer) (h : WfB a) (hs : a.sign = false) :
    magVal a.dig ≠ 0 := by
  intro h0
  have := h.2 (((is_zero_iff a).1 ((is_zero_magVal a h).2 h0)))
  rw [hs] at this
  exact Bool.false_ne_true this

theorem negB_dig (a : big_integer) : (negB a).dig = a.dig := by
  unfold negB
  split <;> rfl

theorem negB_wf (a : big_integer) (h : WfB a) : WfB (negB a) := by
  unfold negB
  split
  · exact h
  · next hz =>
    refine ⟨h.1, ?_⟩
    intro h0
    exact absurd ((is_zero_iff a).2 h0) (by simpa using hz)

theorem negB_val (a : big_integer) (h : WfB a) : val (negB a) = -val a := by
  unfold negB
  split
  · next hz =>
    have h0 : magVal a.dig = 0 := (is_zero_magVal a h).1 hz
    simp [val, h0]
  · next hz =>
    cases hs : a.sign <;> simp [val, hs]

theorem negB_of_ne_zero (a : big_integer) (h : WfB a) (hnz : magVal a.dig ≠ 0) :
    negB a = ⟨!a.sign, a.dig⟩ := by
  unfold negB
  rw [if_neg]
  intro hz
  exact hnz ((is_zero_magVal a h).1 hz)

/-- For a well-formed value, `abs` just forces the sign to `true`. -/
theorem absB_eq (a : big_integer) (h : WfB a) : absB a = ⟨true, a.dig⟩ := by
  unfold absB
  by_cases hs : a.sign = false
  · rw [if_pos ((compare_zero_lt a h).2 hs)]
    rw [negB_of_ne_zero a h (wf_sign_false_magVal a h hs), hs]
    rfl
  · have hs' : a.sign = true := by
      cases hsa : a.sign
      · exact absurd hsa hs
      · rfl
    rw [if_neg]
    · rcases a with ⟨s, d⟩
      simp only at hs'
      rw [hs']
    · rw [(compare_zero_lt a h)]
      simp [hs']

theorem absB_wf (a : big_integer) (h : WfB a) : WfB (absB a) := by
  rw [absB_eq a h]
  exact ⟨h.1, fun _ => rfl⟩

theorem magVal_headD_tail (ys : List Nat) :
    magVal ys = ys.headD 0 + 2 ^ 32 * magVal ys.tail := by
  match ys with
  | [] => rfl
  | y :: t => rfl

theorem val_normalize (s : Bool) (d : List Nat) :
    val (normalize ⟨s, d⟩) = if s then (magVal d : Int) else -(magVal d : Int) := by
  unfold val
  rw [normalize_magVal]
  by_cases h0 : (normalize ⟨s, d⟩).dig = [0]
  · have hz : magVal d = 0 := by
      have := normalize_magVal ⟨s, d⟩
      rw [h0] at this
      simpa [magVal] using this.symm
    rw [normalize_sign, if_pos h0]
    simp [hz]
  · rw [normalize_sign, if_neg h0]

theorem padResize_length (l : List Nat) (n : Nat) : (padResize l n).length = n := by
  unfold padResize
  simp only [List.length_append, List.length_take, List.length_replicate]
  omega

theorem padResize_magVal (l : List Nat) (n : Nat) (h : l.length ≤ n) :
    magVal (padResize l n) = magVal l := by
  unfold padResize
  rw [List.take_of_length_le h, magVal_append, magVal_replicate, Nat.mul_zero, Nat.add_zero]

theorem padResize_bounded (l : List Nat) (n : Nat) (h : boundedW l) :
    boundedW (padResize l n) := by
  unfold padResize
  rw [boundedW_append]
  exact ⟨fun x hx => h x (List.mem_of_mem_take hx), boundedW_replicate _⟩

theorem addWords_length : ∀ (xs ys : List Nat) (c : Nat), (addWords xs ys c).length = xs.length
  | [], _, _ => rfl
  | x :: xs, ys, c => by
    rw [addWords]
    simp only [List.length_cons, addWords_length xs]

theorem addWords_bounded : ∀ (xs ys : List Nat) (c : Nat), boundedW (addWords xs ys c)
  | [], _, _ => by intro z hz; simp [addWords] at hz
  | x :: xs, ys, c => by
    rw [addWords]
    intro z hz
    rcases List.mem_cons.1 hz with rfl | hz
    · exact Nat.mod_lt _ (by norm_num)
    · exact addWords_bounded xs ys.tail _ z hz

theorem addWords_magVal : ∀ (xs ys : List Nat) (c : Nat), ys.length ≤ xs.length →
    magVal (addWords xs ys c) = (magVal xs + magVal ys + c) % 2 ^ (32 * xs.length)
  | [], ys, c, h => by
    have : ys = [] := List.length_eq_zero.1 (Nat.le_zero.1 h)
    subst this
    simp [addWords, magVal, Nat.mod_one]
  | x :: xs, ys, c, h => by
    have htl : ys.tail.length ≤ xs.length := by
      rcases ys with _ | ⟨y, t⟩
      · simp
      · simpa using h
    rw [addWords, magVal, addWords_magVal xs ys.tail _ htl]
    rw [magVal_headD_tail ys, magVal]
    have hlen : 32 * (x :: xs).length = 32 * xs.length + 32 := by simp [List.length_cons]; ring
    rw [hlen, pow_add]
    set s := x + ys.headD 0 + c with hs
    set T := magVal xs + magVal ys.tail + s / 2 ^ 32 with hT
    set N := (2 : Nat) ^ (32 * xs.length) with hN
    have hc : (s % 2 ^ 32 + 2 ^ 32 * T) % (2 ^ 32 * N) =
        (s % 2 ^ 32 + 2 ^ 32 * (T % N)) % (2 ^ 32 * N) :=
      Nat.ModEq.add_left _ ((Nat.mod_modEq T N).symm.mul_left' (c := 2 ^ 32))
    have hlt : s % 2 ^ 32 + 2 ^ 32 * (T % N) < 2 ^ 32 * N := by
      have h1 : s % 2 ^ 32 < 2 ^ 32 := Nat.mod_lt _ (by norm_num)
      have h2 : T % N < N := Nat.mod_lt _ (by positivity)
      calc s % 2 ^ 32 + 2 ^ 32 * (T % N) < 2 ^ 32 + 2 ^ 32 * (T % N) := by omega
      _ ≤ 2 ^ 32 * (T % N + 1) := by ring_nf; omega
      _ ≤ 2 ^ 32 * N := Nat.mul_le_mul_left _ (by omega)
    have key : (s % 2 ^ 32 + 2 ^ 32 * T) % (2 ^ 32 * N) = s % 2 ^ 32 + 2 ^ 32 * (T % N) :=
      Eq.trans hc (Nat.mod_eq_of_lt hlt)
    have hdm : s % 2 ^ 32 + 2 ^ 32 * (s / 2 ^ 32) = s := Nat.mod_add_div s (2 ^ 32)
    have hgoal : x + ys.headD 0 + 2 ^ 32 * magVal xs + 2 ^ 32 * magVal ys.tail + c =
        s % 2 ^ 32 + 2 ^ 32 * T := by
      rw [hT]
      ring_nf
      omega
    calc s % 2 ^ 32 + 2 ^ 32 * (T % N)
        = (s % 2 ^ 32 + 2 ^ 32 * T) % (2 ^ 32 * N) := key.symm
      _ = (x + ys.headD 0 + 2 ^ 32 * magVal xs + 2 ^ 32 * magVal ys.tail + c) % (2 ^ 32 * N) := by
          rw [hgoal]
      _ = (x + 2 ^ 32 * magVal xs + (ys.headD 0 + 2 ^ 32 * magVal ys.tail) + c) % (N * 2 ^ 32) := by
          rw [Nat.mul_comm N]
          congr 1
          ring

/-- The word array built by same-sign `operator+=` carries the exact sum of
the magnitudes. -/
theorem addCore_words_magVal (a rhs : big_integer) (ha : NormList a.dig)
    (hb : NormList rhs.dig) :
    magVal (addWords (padResize a.dig (max a.dig.length rhs.dig.length + 1)) rhs.dig 0) =
      magVal a.dig + magVal rhs.dig := by
  set L := max a.dig.length rhs.dig.length + 1 with hL
  have h1 : rhs.dig.length ≤ (padResize a.dig L).length := by
    rw [padResize_length]
    omega
  rw [addWords_magVal _ _ _ h1, padResize_magVal _ _ (by omega), padResize_length]
  apply Nat.mod_eq_of_lt
  have hma : magVal a.dig < 2 ^ (32 * a.dig.length) := magVal_lt _ ha.2.1
  have hmb : magVal rhs.dig < 2 ^ (32 * rhs.dig.length) := magVal_lt _ hb.2.1
  have hA : 2 ^ (32 * a.dig.length) ≤ 2 ^ (32 * (L - 1)) :=
    Nat.pow_le_pow_right (by norm_num) (by omega)
  have hB : 2 ^ (32 * rhs.dig.length) ≤ 2 ^ (32 * (L - 1)) :=
    Nat.pow_le_pow_right (by norm_num) (by omega)
  have hstep : 2 ^ (32 * (L - 1)) * 2 ≤ 2 ^ (32 * L) := by
    have h2 : 32 * (L - 1) + 1 ≤ 32 * L := by omega
    calc 2 ^ (32 * (L - 1)) * 2 = 2 ^ (32 * (L - 1) + 1) := by rw [pow_succ]
    _ ≤ 2 ^ (32 * L) := Nat.pow_le_pow_right (by norm_num) h2
  omega

theorem addSameCore_magVal (a rhs : big_integer) (ha : NormList a.dig) (hb : NormList rhs.dig) :
    magVal (addSameCore a rhs).dig = magVal a.dig + magVal rhs.dig := by
  unfold addSameCore
  rw [normalize_magVal]
  exact addCore_words_magVal a rhs ha hb

theorem addSameCore_wf (a rhs : big_integer) : WfB (addSameCore a rhs) := by
  unfold addSameCore
  apply normalize_wf
  · have hlen := addWords_length (padResize a.dig (max a.dig.length rhs.dig.length + 1)) rhs.dig 0
    intro hc
    rw [hc] at hlen
    simp [padResize_length] at hlen
  · exact addWords_bounded _ _ _

theorem addSameCore_val (a rhs : big_integer) (ha : WfB a) (hb : WfB rhs)
    (hs : a.sign = rhs.sign) : val (addSameCore a rhs) = val a + val rhs := by
  unfold addSameCore
  rw [val_normalize, addCore_words_magVal a rhs ha.1 hb.1]
  unfold val
  rw [← hs]
  cases a.sign
  · simp only [Bool.false_eq_true, if_false]
    push_cast
    ring
  · simp only [if_true]
    push_cast
    ring

theorem headD_lt (ys : List Nat) (h : boundedW ys) : ys.headD 0 < 2 ^ 32 := by
  rcases ys with _ | ⟨y, t⟩
  · norm_num [List.headD]
  · exact h y (List.mem_cons_self _ _)

theorem boundedW_tail (ys : List Nat) (h : boundedW ys) : boundedW ys.tail := by
  rcases ys with _ | ⟨y, t⟩
  · exact h
  · exact fun x hx => h x (List.mem_cons_of_mem _ hx)

theorem subBorrow_length : ∀ (xs ys : List Nat) (t : Nat),
    (subBorrow xs ys t).length = xs.length
  | [], _, _ => rfl
  | x :: xs, ys, t => by
    rw [subBorrow]
    simp only [List.length_cons, subBorrow_length xs]

theorem subBorrow_bounded : ∀ (xs ys : List Nat) (t : Nat), boundedW (subBorrow xs ys t)
  | [], _, _ => by intro z hz; simp [subBorrow] at hz
  | x :: xs, ys, t => by
    rw [subBorrow]
    intro z hz
    rcases List.mem_cons.1 hz with rfl | hz
    · exact Nat.mod_lt _ (by norm_num)
    · exact subBorrow_bounded xs ys.tail _ z hz

theorem subBorrow_magVal : ∀ (xs ys : List Nat) (t : Nat), boundedW xs → boundedW ys →
    ys.length ≤ xs.length → t ≤ 1 → magVal ys + t ≤ magVal xs →
    magVal (subBorrow xs ys t) = magVal xs - magVal ys - t
  | [], ys, t, _, _, hlen, _, hmag => by
    have hys : ys = [] := List.length_eq_zero.1 (Nat.le_zero.1 hlen)
    subst hys
    simp [subBorrow, magVal]
  | x :: xs, ys, t, hbx, hby, hlen, ht, hmag => by
    have hx : x < 2 ^ 32 := hbx x (List.mem_cons_self _ _)
    have hy0 : ys.headD 0 < 2 ^ 32 := headD_lt ys hby
    have hbxs : boundedW xs := boundedW_tail _ hbx
    have hbyt : boundedW ys.tail := boundedW_tail _ hby
    have hlent : ys.tail.length ≤ xs.length := by
      rcases ys with _ | ⟨y, yt⟩
      · simp
      · simpa using hlen
    rw [magVal_headD_tail ys] at hmag
    simp only [magVal] at hmag
    rw [subBorrow]
    by_cases hlt : x < ys.headD 0 + t
    · rw [if_pos hlt]
      simp only [magVal]
      rw [subBorrow_magVal xs ys.tail 1 hbxs hbyt hlent (by omega) (by omega)]
      rw [magVal_headD_tail ys]
      have hword : (x + 2 ^ 33 - ys.headD 0 - t) % 2 ^ 32 = x + 2 ^ 32 - ys.headD 0 - t := by
        omega
      rw [hword]
      omega
    · rw [if_neg hlt]
      simp only [magVal]
      rw [subBorrow_magVal xs ys.tail 0 hbxs hbyt hlent (by omega) (by omega)]
      rw [magVal_headD_tail ys]
      have hword : (x + 2 ^ 33 - ys.headD 0 - t) % 2 ^ 32 = x - ys.headD 0 - t := by
        omega
      rw [hword]
      omega

theorem popBackZero_magVal (l : List Nat) : magVal (popBackZero l) = magVal l := by
  unfold popBackZero
  split
  · next hl =>
    rcases l with _ | ⟨x, t⟩
    · simp at hl
    · conv_rhs => rw [← List.dropLast_append_getLast (l := x :: t) (by simp)]
      rw [magVal_append]
      rw [List.getLast?_eq_getLast _ (by simp)] at hl
      have : (x :: t).getLast (by simp) = 0 := by simpa using hl
      simp [this, magVal]
  · rfl

theorem popBackZero_bounded (l : List Nat) (h : boundedW l) : boundedW (popBackZero l) := by
  unfold popBackZero
  split
  · exact fun x hx => h x (List.dropLast_sublist l |>.mem hx)
  · exact h

theorem popBackZero_length (l : List Nat) : (popBackZero l).length ≤ l.length := by
  unfold popBackZero
  split
  · simp [List.length_dropLast]
  · exact le_refl _

/-- For well-formed negative `a`, the receiver compares `<= -1`, so the swap
branch of `operator-= (-1)` is not taken. -/
theorem compare_le_minusOne (a : big_integer) (h : WfB a) (hs : a.sign = false) :
    ¬ 0 < compareB a ⟨false, [1]⟩ := by
  rcases a with ⟨s, d⟩
  simp only at hs
  subst hs
  match d, h.1.1 with
  | [x], _ =>
    have hx : x ≠ 0 := by
      intro h0
      subst h0
      exact Bool.false_ne_true (h.2 rfl)
    simp only [compareB, positive]
    norm_num
    rw [cmpWords]
    rcases Nat.lt_trichotomy x 1 with hlt | heq | hgt
    · omega
    · subst heq
      simp [cmpWords]
    · rw [if_neg (by omega), if_pos hgt]
      norm_num
  | x :: y :: t, _ =>
    simp only [compareB, positive]
    rw [if_pos (by simp)]
    norm_num

/-- `popZeros`-then-reverse never lengthens a list. -/
theorem normalize_length (a : big_integer) : (normalize a).dig.length ≤ a.dig.length := by
  rw [normalize_dig]
  calc (popZeros a.dig.reverse).reverse.length
      = (popZeros a.dig.reverse).length := List.length_reverse _
    _ ≤ a.dig.reverse.length := (popZeros_sublist _).length_le
    _ = a.dig.length := List.length_reverse _

theorem normalize_sign_mk (b : big_integer) :
    (normalize b).sign = if (normalize b).dig = [0] then true else b.sign := by
  rcases b with ⟨s, d⟩
  rfl

theorem normalize_bounded (a : big_integer) (h : boundedW a.dig) :
    boundedW (normalize a).dig := by
  rw [normalize_dig]
  intro z hz
  exact h z (List.mem_reverse.1 ((popZeros_sublist _).mem (List.mem_reverse.1 hz)))

/-- `++a` on a well-formed negative value: the sign stays `false` (even for
`a = -1`, where the magnitude vector becomes empty) and the magnitude drops
by one. -/
theorem incB_neg (a : big_integer) (h : WfB a) (hs : a.sign = false) :
    (incB a).sign = false ∧ magVal (incB a).dig = magVal a.dig - 1 ∧
      boundedW (incB a).dig ∧ (incB a).dig.length ≤ a.dig.length := by
  have hM : magVal a.dig ≠ 0 := wf_sign_false_magVal a h hs
  have hone : negB oneB = ⟨false, [1]⟩ := rfl
  have hstep : incB a = subSame a ⟨false, [1]⟩ := by
    unfold incB addB
    rw [if_neg (by decide)]
    rw [if_neg (by rw [hs]; decide)]
    rw [hone]
  have hcond : ¬ ((a.sign = true ∧ compareB a ⟨false, [1]⟩ < 0) ∨
      (a.sign = false ∧ 0 < compareB a ⟨false, [1]⟩)) := by
    push_neg
    constructor
    · intro hc
      rw [hs] at hc
      exact absurd hc (by simp)
    · intro _
      exact le_of_not_lt (compare_le_minusOne a h hs)
  rw [hstep]
  unfold subSame
  rw [if_neg hcond]
  have hdiff : (difference a ⟨false, [1]⟩ 0).dig = popBackZero (subBorrow a.dig [1] 0) := by
    unfold difference
    simp
  have hlen1 : [1].length ≤ a.dig.length := by
    rcases hd : a.dig with _ | ⟨c, cs⟩
    · exact absurd hd h.1.1
    · simp
  have hsub : magVal (subBorrow a.dig [1] 0) = magVal a.dig - 1 := by
    rw [subBorrow_magVal a.dig [1] 0 h.1.2.1 (by intro z hz; simp at hz; omega)
      hlen1 (by omega) (by simp [magVal]; omega)]
    simp [magVal]
  have hmagd : magVal (difference a ⟨false, [1]⟩ 0).dig = magVal a.dig - 1 := by
    rw [hdiff, popBackZero_magVal, hsub]
  refine ⟨?_, ?_, ?_, ?_⟩
  · rw [normalize_sign_mk]
    have hsign : (difference a ⟨false, [1]⟩ 0).sign = a.sign := rfl
    rw [hsign, hs]
    rw [if_neg ?_]
    intro hc
    have hmv : magVal (normalize (difference a ⟨false, [1]⟩ 0)).dig = magVal a.dig - 1 := by
      rw [normalize_magVal, hmagd]
    rw [hc] at hmv
    have hM1 : magVal a.dig = 1 := by
      simp [magVal] at hmv
      omega
    have hdig1 : a.dig = [1] := norm_uniq a.dig [1] h.1 (by decide) (by simp [magVal, hM1])
    have hnil : (difference a ⟨false, [1]⟩ 0).dig = [] := by
      rw [hdiff, hdig1]
      decide
    rw [normalize_dig, hnil] at hc
    simp [popZeros] at hc
  · rw [normalize_magVal, hmagd]
  · exact normalize_bounded _ (by rw [hdiff]; exact popBackZero_bounded _ (subBorrow_bounded _ _ _))
  · calc (normalize (difference a ⟨false, [1]⟩ 0)).dig.length
        ≤ (difference a ⟨false, [1]⟩ 0).dig.length := normalize_length _
      _ ≤ a.dig.length := by
          rw [hdiff]
          calc (popBackZero (subBorrow a.dig [1] 0)).length
              ≤ (subBorrow a.dig [1] 0).length := popBackZero_length _
            _ = a.dig.length := subBorrow_length _ _ _

theorem getD_lt_of_bounded (l : List Nat) (h : boundedW l) (i : Nat) : l.getD i 0 < 2 ^ 32 := by
  by_cases hi : i < l.length
  · rw [List.getD_eq_getElem l 0 hi]
    exact h _ (List.getElem_mem _)
  · rw [List.getD_eq_default l 0 (by omega)]
    norm_num

theorem range_map_getD (l : List Nat) :
    (List.range l.length).map (fun i => l.getD i 0) = l := by
  induction l with
  | nil => rfl
  | cons x xs ih =>
    rw [List.length_cons, List.range_succ_eq_map, List.map_cons, List.map_map]
    show x :: (List.range xs.length).map (fun i => (x :: xs).getD (i + 1) 0) = x :: xs
    have hfun : ∀ i, (x :: xs).getD (i + 1) 0 = xs.getD i 0 := fun i => rfl
    simp only [hfun]
    rw [ih]

theorem range_map_getD_pad (l : List Nat) (n : Nat) (h : l.length ≤ n) :
    (List.range n).map (fun i => l.getD i 0) = padResize l n := by
  have hsplit : n = l.length + (n - l.length) := by omega
  rw [hsplit, List.range_add, List.map_append, range_map_getD]
  unfold padResize
  rw [List.take_of_length_le (by omega : l.length ≤ l.length + (n - l.length))]
  congr 1
  apply List.eq_replicate.2
  refine ⟨by simp, ?_⟩
  intro b hb
  rw [List.mem_map] at hb
  obtain ⟨i, hi, hbi⟩ := hb
  rw [List.mem_map] at hi
  obtain ⟨j, hj, hij⟩ := hi
  rw [← hbi]
  apply List.getD_eq_default
  omega

theorem magVal_invert (l : List Nat) (h : boundedW l) :
    magVal (l.map (fun x => 2 ^ 32 - 1 - x)) = 2 ^ (32 * l.length) - 1 - magVal l := by
  induction l with
  | nil => simp [magVal]
  | cons x xs ih =>
    have hx : x < 2 ^ 32 := h x (List.mem_cons_self _ _)
    have hxs := ih (boundedW_tail _ h)
    have hXlt : magVal xs < 2 ^ (32 * xs.length) := magVal_lt _ (boundedW_tail _ h)
    rw [List.map_cons]
    simp only [magVal, List.length_cons]
    rw [hxs]
    have hpow : 2 ^ (32 * (xs.length + 1)) = 2 ^ 32 * 2 ^ (32 * xs.length) := by
      rw [← pow_add]
      congr 1
      ring
    rw [hpow]
    have hpos : (0:Nat) < 2 ^ (32 * xs.length) := by positivity
    omega

theorem invert_bounded (l : List Nat) : boundedW (l.map (fun x => 2 ^ 32 - 1 - x)) := by
  intro z hz
  rw [List.mem_map] at hz
  obtain ⟨x, _, hx⟩ := hz
  omega

/-- `transform_to_compl2` at a strictly larger width: the sign is kept, the
word count becomes `new_size`, and the words denote either the magnitude
(non-negative) or its two's complement `2 ^ (32 new_size) - M` (negative). -/
theorem transform_spec (a : big_integer) (L : Nat) (h : WfB a) (hlen : a.dig.length ≤ L) :
    (transform_to_compl2 a L).sign = a.sign ∧
    (transform_to_compl2 a L).dig.length = L ∧
    boundedW (transform_to_compl2 a L).dig ∧
    magVal (transform_to_compl2 a L).dig =
      (if a.sign then magVal a.dig else 2 ^ (32 * L) - magVal a.dig) := by
  unfold transform_to_compl2
  by_cases hs : a.sign = false
  · rw [if_pos hs]
    obtain ⟨hsi, hmi, hbi, hli⟩ := incB_neg a h hs
    refine ⟨by rw [hsi, hs], by simp [padResize_length], ?_, ?_⟩
    · exact invert_bounded _
    · rw [hs]
      simp only [Bool.false_eq_true, if_false]
      show magVal ((padResize (incB a).dig L).map (fun x => 2 ^ 32 - 1 - x)) = _
      rw [magVal_invert _ (padResize_bounded _ _ hbi), padResize_length,
        padResize_magVal _ _ (by omega), hmi]
      have hM : magVal a.dig ≠ 0 := wf_sign_false_magVal a h hs
      have hMlt : magVal a.dig < 2 ^ (32 * a.dig.length) := magVal_lt _ h.1.2.1
      have hle : 2 ^ (32 * a.dig.length) ≤ 2 ^ (32 * L) :=
        Nat.pow_le_pow_right (by norm_num) (by omega)
      omega
  · rw [if_neg hs]
    have hs' : a.sign = true := by
      cases hsa : a.sign
      · exact absurd hsa hs
      · rfl
    refine ⟨rfl, padResize_length _ _, padResize_bounded _ _ h.1.2.1, ?_⟩
    rw [hs']
    simp only [if_true]
    exact padResize_magVal _ _ hlen

/-- The two's complement of `-1` at width `L` is all ones. -/
theorem transform_minusOne (L : Nat) :
    transform_to_compl2 ⟨false, [1]⟩ L =
      ⟨false, List.replicate L (2 ^ 32 - 1)⟩ := by
  have hinc : incB ⟨false, [1]⟩ = ⟨false, []⟩ := by decide
  unfold transform_to_compl2
  rw [if_pos rfl, hinc]
  show (⟨false, (padResize [] L).map (fun x => 2 ^ 32 - 1 - x)⟩ : big_integer) = _
  have hpad : padResize [] L = List.replicate L 0 := by
    unfold padResize
    simp
  rw [hpad, List.map_replicate]
  norm_num

theorem land_mask (x : Nat) (h : x < 2 ^ 32) : Nat.land x (2 ^ 32 - 1) = x := by
  show x &&& (2 ^ 32 - 1) = x
  exact Nat.and_pow_two_sub_one_of_lt_two_pow h

theorem lor_mask (x : Nat) (h : x < 2 ^ 32) : Nat.lor x (2 ^ 32 - 1) = 2 ^ 32 - 1 := by
  show x ||| (2 ^ 32 - 1) = 2 ^ 32 - 1
  apply Nat.eq_of_testBit_eq
  intro i
  rw [Nat.testBit_lor, Nat.testBit_two_pow_sub_one]
  by_cases hi : i < 32
  · simp [hi]
  · have hx : x.testBit i = false := by
      apply Nat.testBit_lt_two_pow
      calc x < 2 ^ 32 := h
      _ ≤ 2 ^ i := Nat.pow_le_pow_right (by norm_num) (by omega)
    simp [hi, hx]

theorem mkBI_eq (s : Bool) (d : List Nat) (c : big_integer) (hne : d ≠ [])
    (hb : boundedW d) (hc : WfB c) (hv : magVal d = magVal c.dig)
    (hs : magVal d = 0 ∨ s = c.sign) : mkBI s d = c :=
  normalize_eq s d c hne hb hc hv hs

theorem addSameCore_eq (x y c : big_integer) (hx : NormList x.dig) (hy : NormList y.dig)
    (hc : WfB c) (hv : magVal x.dig + magVal y.dig = magVal c.dig)
    (hs : magVal c.dig = 0 ∨ x.sign = c.sign) : addSameCore x y = c := by
  unfold addSameCore
  apply normalize_eq
  · intro hcon
    have hlen := addWords_length (padResize x.dig (max x.dig.length y.dig.length + 1)) y.dig 0
    rw [hcon] at hlen
    simp [padResize_length] at hlen
  · exact addWords_bounded _ _ _
  · exact hc
  · rw [addCore_words_magVal x y hx hy]
    exact hv
  · rcases hs with hs | hs
    · exact Or.inl (by rw [addCore_words_magVal x y hx hy, hv, hs])
    · exact Or.inr hs

/-- `--x` on a non-positive normalized value `x` with `|x| + 1 = |c|`,
`c` negative: lands in the same-sign magnitude addition. -/
theorem decB_neg (x c : big_integer) (hxs : x.sign = false) (hxn : NormList x.dig)
    (hc : WfB c) (hcs : c.sign = false) (hv : magVal x.dig + 1 = magVal c.dig) :
    decB x = c := by
  unfold decB subB
  rw [if_neg (by decide)]
  rw [if_neg (by rw [hxs]; decide)]
  show addSameCore x (negB oneB) = c
  rw [show negB oneB = ⟨false, [1]⟩ from rfl]
  exact addSameCore_eq x ⟨false, [1]⟩ c hxn (by decide) hc (by simpa [magVal] using hv)
    (Or.inr (hxs.trans hcs.symm))

/-- `a & -1 == a`, structurally, for well-formed `a`. -/
theorem andB_minusOne (a : big_integer) (h : WfB a) : andB a ⟨false, [1]⟩ = a := by
  by_cases hone : a = ⟨false, [1]⟩
  · rw [hone]
    decide
  simp only [andB, bit_function_applier]
  rw [transform_minusOne]
  set L := max a.dig.length ([1] : List Nat).length + 1 with hL
  have hlenL : a.dig.length ≤ L := by
    rw [hL]
    simp only [List.length_singleton]
    omega
  obtain ⟨hts, htl, htb, htm⟩ := transform_spec a L h hlenL
  set W := (transform_to_compl2 a L).dig with hWdef
  have hrep : ∀ i, i < L → (List.replicate L (2 ^ 32 - 1)).getD i 0 = 2 ^ 32 - 1 := by
    intro i hi
    rw [List.getD_eq_getElem _ 0 (by simpa using hi)]
    simp
  cases hsa : a.sign
  · -- negative: result_sign false, words inverted, then decrement
    rw [hsa] at hts htm
    simp only [Bool.false_eq_true, if_false] at htm
    simp only [hts, Bool.false_eq_true, if_false, show Nat.land 1 1 = 1 from rfl,
      show ((1 : Nat) == 0) = false from rfl]
    have hnum : (List.range L).map (fun i => 2 ^ 32 - 1 -
        Nat.land (W.getD i 0) ((List.replicate L (2 ^ 32 - 1)).getD i 0)) =
        W.map (fun w => 2 ^ 32 - 1 - w) := by
      conv_rhs => rw [← range_map_getD W, htl]
      rw [List.map_map]
      apply List.map_congr_left
      intro i hi
      rw [List.mem_range] at hi
      rw [hrep i hi, land_mask _ (getD_lt_of_bounded _ htb i)]
      rfl
    rw [hnum]
    have hMne : magVal a.dig ≠ 0 := wf_sign_false_magVal a h hsa
    have hMlt : magVal a.dig < 2 ^ (32 * a.dig.length) := magVal_lt _ h.1.2.1
    have hpowle : 2 ^ (32 * a.dig.length) ≤ 2 ^ (32 * L) :=
      Nat.pow_le_pow_right (by norm_num) (by omega)
    have hmagnum : magVal (W.map (fun w => 2 ^ 32 - 1 - w)) = magVal a.dig - 1 := by
      rw [magVal_invert _ htb, htl, htm]
      omega
    by_cases hM1 : magVal a.dig = 1
    · exfalso
      apply hone
      have hd : a.dig = [1] := norm_uniq a.dig [1] h.1 (by decide) (by simp [magVal, hM1])
      rcases a with ⟨s, d⟩
      simp only at hsa hd
      rw [hsa, hd]
    · have hmkeq : mkBI false (W.map (fun w => 2 ^ 32 - 1 - w)) =
          normalize ⟨false, W.map (fun w => 2 ^ 32 - 1 - w)⟩ := rfl
      have hne0 : ¬ (normalize ⟨false, W.map (fun w => 2 ^ 32 - 1 - w)⟩).dig = [0] := by
        intro hc
        have hmv := normalize_magVal ⟨false, W.map (fun w => 2 ^ 32 - 1 - w)⟩
        rw [hc] at hmv
        simp only [magVal] at hmv
        omega
      refine decB_neg _ a ?_ ?_ h hsa ?_
      · rw [hmkeq, normalize_sign_mk, if_neg hne0]
      · rw [hmkeq]
        apply normalize_NormList
        · intro hc
          have hc' : (W.map (fun w => 2 ^ 32 - 1 - w)) = [] := hc
          have hlc : (W.map (fun w => 2 ^ 32 - 1 - w)).length = L := by
            rw [List.length_map, htl]
          rw [hc'] at hlc
          simp at hlc
          omega
        · exact invert_bounded _
      · rw [hmkeq, normalize_magVal]
        show magVal (W.map (fun w => 2 ^ 32 - 1 - w)) + 1 = _
        rw [hmagnum]
        omega
  · -- non-negative: result_sign true, words are the zero-extended magnitude
    rw [hsa] at hts htm
    simp only [hts, if_true, Bool.false_eq_true, if_false, show Nat.land 0 1 = 0 from rfl,
      show ((0 : Nat) == 0) = true from rfl, eq_self_iff_true]
    have hnum : (List.range L).map (fun i =>
        Nat.land (W.getD i 0) ((List.replicate L (2 ^ 32 - 1)).getD i 0)) = W := by
      conv_rhs => rw [← range_map_getD W, htl]
      apply List.map_congr_left
      intro i hi
      rw [List.mem_range] at hi
      rw [hrep i hi, land_mask _ (getD_lt_of_bounded _ htb i)]
    rw [hnum]
    apply mkBI_eq
    · intro hc
      rw [hc] at htl
      simp at htl
      omega
    · exact htb
    · exact h
    · exact htm
    · exact Or.inr hsa.symm

/-- `a | -1 == -1`, structurally, for well-formed `a`. -/
theorem orB_minusOne (a : big_integer) (h : WfB a) : orB a ⟨false, [1]⟩ = ⟨false, [1]⟩ := by
  simp only [orB, bit_function_applier]
  rw [transform_minusOne]
  set L := max a.dig.length ([1] : List Nat).length + 1 with hL
  have hlenL : a.dig.length ≤ L := by
    rw [hL]
    simp only [List.length_singleton]
    omega
  obtain ⟨hts, htl, htb, htm⟩ := transform_spec a L h hlenL
  set W := (transform_to_compl2 a L).dig with hWdef
  have hrep : ∀ i, i < L → (List.replicate L (2 ^ 32 - 1)).getD i 0 = 2 ^ 32 - 1 := by
    intro i hi
    rw [List.getD_eq_getElem _ 0 (by simpa using hi)]
    simp
  have hnum : (List.range L).map (fun i =>
      2 ^ 32 - 1 - Nat.lor (W.getD i 0) ((List.replicate L (2 ^ 32 - 1)).getD i 0)) =
      List.replicate L 0 := by
    apply List.eq_replicate.2
    refine ⟨by simp, ?_⟩
    intro b hb
    rw [List.mem_map] at hb
    obtain ⟨i, hi, hbi⟩ := hb
    rw [List.mem_range] at hi
    rw [hrep i hi, lor_mask _ (getD_lt_of_bounded _ htb i)] at hbi
    omega
  have hres : mkBI false (List.replicate L 0) = zeroB := by
    refine mkBI_eq _ _ _ ?_ (boundedW_replicate _) (by decide) ?_ (Or.inl (magVal_replicate _))
    all_goals first
    | (intro hc
       have hlc := congrArg List.length hc
       simp at hlc
       omega)
    | simp [magVal_replicate, zeroB, magVal]
  cases hsa : a.sign
  · rw [hsa] at hts
    simp only [hts, Bool.false_eq_true, if_false, show Nat.lor 1 1 = 1 from rfl,
      show ((1 : Nat) == 0) = false from rfl]
    rw [hnum, hres]
    decide
  · rw [hsa] at hts
    simp only [hts, if_true, Bool.false_eq_true, if_false, show Nat.lor 0 1 = 1 from rfl,
      show ((1 : Nat) == 0) = false from rfl]
    rw [hnum, hres]
    decide

/-- `a ^ a == 0`, structurally: identical two's-complement words cancel. -/
theorem xorB_self (a : big_integer) : xorB a a = zeroB := by
  simp only [xorB, bit_function_applier]
  set L := max a.dig.length a.dig.length + 1 with hL
  have hxs : ∀ x : Nat, Nat.xor x x = 0 := fun x => Nat.xor_self x
  simp only [hxs, show ((0 : Nat) == 0) = true from rfl, if_true]
  have hnum : (List.range L).map (fun i => (0 : Nat)) = List.replicate L 0 := by
    apply List.eq_replicate.2
    refine ⟨by simp, ?_⟩
    intro b hb
    rw [List.mem_map] at hb
    obtain ⟨i, _, hbi⟩ := hb
    omega
  rw [hnum]
  refine mkBI_eq _ _ _ ?_ (boundedW_replicate _) (by decide) ?_ (Or.inl (magVal_replicate _))
  all_goals first
  | (intro hc
     have hlc := congrArg List.length hc
     simp at hlc
     omega)
  | simp [magVal_replicate, zeroB, magVal]

/-! ### Bit extraction lemmas for the shift engine -/

theorem getD_tail (l : List Nat) (q : Nat) : l.tail.getD q 0 = l.getD (q + 1) 0 := by
  rcases l with _ | ⟨x, xs⟩
  · simp
  · rfl

theorem magVal_div_two32 (l : List Nat) (h : boundedW l) :
    magVal l / 2 ^ 32 = magVal l.tail := by
  rw [magVal_headD_tail l]
  rw [Nat.add_mul_div_left _ _ (by positivity : (0:Nat) < 2 ^ 32)]
  rw [Nat.div_eq_of_lt (headD_lt l h)]
  omega

/-- The middle 32-bit window of `d0 + 2^32 d1 + 2^64 T` at offset `r`. -/
theorem extract_core (d0 d1 T r : Nat) (h0 : d0 < 2 ^ 32) (h1 : d1 < 2 ^ 32)
    (hr1 : 1 ≤ r) (hr2 : r ≤ 31) :
    (d0 + 2 ^ 32 * d1 + 2 ^ 64 * T) / 2 ^ r % 2 ^ 32 =
      d0 / 2 ^ r + d1 % 2 ^ r * 2 ^ (32 - r) := by
  interval_cases r <;> omega

/-- Aligned 32-bit window of a bounded word list: word `q`. -/
theorem extract_word0 : ∀ (l : List Nat), boundedW l → ∀ q : Nat,
    magVal l / 2 ^ (32 * q) % 2 ^ 32 = l.getD q 0 := by
  intro l hb q
  induction q generalizing l with
  | zero =>
    simp only [Nat.mul_zero, pow_zero, Nat.div_one]
    rw [magVal_headD_tail l, Nat.add_mul_mod_self_left, Nat.mod_eq_of_lt (headD_lt l hb)]
    rcases l with _ | ⟨x, xs⟩
    · rfl
    · rfl
  | succ q ih =>
    have hq : 32 * (q + 1) = 32 + 32 * q := by ring
    rw [hq, pow_add, ← Nat.div_div_eq_div_mul, magVal_div_two32 l hb,
      ih l.tail (boundedW_tail _ hb), getD_tail]

/-- Unaligned 32-bit window of a bounded word list, assembled from words `q`
and `q + 1`. -/
theorem extract_word : ∀ (l : List Nat), boundedW l → ∀ q r : Nat, 1 ≤ r → r ≤ 31 →
    magVal l / 2 ^ (32 * q + r) % 2 ^ 32 =
      l.getD q 0 / 2 ^ r + l.getD (q + 1) 0 % 2 ^ r * 2 ^ (32 - r) := by
  intro l hb q
  induction q generalizing l with
  | zero =>
    intro r hr1 hr2
    have hdec : magVal l = l.getD 0 0 + 2 ^ 32 * l.getD 1 0 + 2 ^ 64 * magVal l.tail.tail := by
      rcases l with _ | ⟨x, xs⟩
      · simp [magVal]
      rcases xs with _ | ⟨y, ys⟩
      · simp [magVal]
      · show x + 2 ^ 32 * (y + 2 ^ 32 * magVal ys) = x + 2 ^ 32 * y + 2 ^ 64 * magVal ys
        ring
    simp only [Nat.mul_zero, Nat.zero_add]
    rw [hdec]
    exact extract_core _ _ _ r (getD_lt_of_bounded l hb 0) (getD_lt_of_bounded l hb 1) hr1 hr2
  | succ q ih =>
    intro r hr1 hr2
    have hq : 32 * (q + 1) + r = 32 + (32 * q + r) := by ring
    rw [hq, pow_add, ← Nat.div_div_eq_div_mul, magVal_div_two32 l hb,
      ih l.tail (boundedW_tail _ hb) r hr1 hr2, getD_tail, getD_tail]

/-! ### Left shift: per-word characterization and value correctness -/

theorem headD_eq_getD (l : List Nat) : l.headD 0 = l.getD 0 0 := by
  rcases l with _ | ⟨x, xs⟩ <;> rfl

theorem guard_getD_eq (D : List Nat) (A : Prop) [Decidable A] (q : Nat) (hA : ¬A) :
    (if A ∨ D.length ≤ q then 0 else D.getD q 0) = D.getD q 0 := by
  by_cases hq : D.length ≤ q
  · rw [if_pos (Or.inr hq)]
    exact (List.getD_eq_default _ _ hq).symm
  · rw [if_neg (by tauto)]

theorem mul_pow_div_pow (M a b : Nat) (h : a ≤ b) :
    M * 2 ^ a / 2 ^ b = M / 2 ^ (b - a) := by
  have he : a + (b - a) = b := by omega
  conv_lhs => rw [← he]
  rw [pow_add, show M * 2 ^ a = 2 ^ a * M from by ring,
    Nat.mul_div_mul_left _ _ (by positivity)]

theorem mul_pow_cancel (M e : Nat) : M * 2 ^ e / 2 ^ e = M := by
  rw [mul_pow_div_pow M e e le_rfl, Nat.sub_self, pow_zero, Nat.div_one]

theorem mul_pow_window_zero (M k i : Nat) (h : 32 * i + 32 ≤ k) :
    M * 2 ^ k / 2 ^ (32 * i) % 2 ^ 32 = 0 := by
  have he : 32 * i + (32 + (k - 32 * i - 32)) = k := by omega
  have h1 : M * 2 ^ k = 2 ^ (32 * i) * (2 ^ 32 * (M * 2 ^ (k - 32 * i - 32))) := by
    conv_lhs => rw [← he]
    rw [pow_add, pow_add]
    ring
  rw [h1, Nat.mul_div_cancel_left _ (by positivity), Nat.mul_mod_right]

theorem mul_pow_low_window (D : List Nat) (s : Nat) (h1 : 1 ≤ s) (h2 : s ≤ 31) :
    magVal D * 2 ^ s % 2 ^ 32 = D.getD 0 0 % 2 ^ (32 - s) * 2 ^ s := by
  rw [magVal_headD_tail D, headD_eq_getD]
  rw [show (D.getD 0 0 + 2 ^ 32 * magVal D.tail) * 2 ^ s
      = D.getD 0 0 * 2 ^ s + 2 ^ 32 * (magVal D.tail * 2 ^ s) from by ring]
  rw [Nat.add_mul_mod_self_left]
  rw [show (2:Nat) ^ 32 = 2 ^ (32 - s) * 2 ^ s from by rw [← pow_add]; congr 1; omega]
  exact Nat.mul_mod_mul_right _ _ _

theorem shiftWord_left (D : List Nat) (hb : boundedW D) (k i : Nat) :
    shiftWord D (k : Int) i = magVal D * 2 ^ k / 2 ^ (32 * i) % 2 ^ 32 := by
  have h0 : (0:Int) ≤ (k:Int) := Int.natCast_nonneg k
  simp only [shiftWord, if_pos h0, show ((k:Int)).toNat = k from rfl]
  by_cases hs0 : k % 32 = 0
  · rw [show (32 - k % 32) % 32 = 0 from by omega]
    rw [if_neg (fun hx : (0:Nat) ≠ 0 => hx rfl), pow_zero, Nat.div_one, zero_add]
    by_cases him : 32 * i < k
    · have hgl : ((32 * (i:Int) - (k:Int) < 0 ∧ (0:Int) ≤ (k:Int)) ∨
          D.length ≤ ((32 * (i:Int) - (k:Int)).toNat / 32)) := Or.inl ⟨by omega, h0⟩
      rw [if_pos hgl]
      exact (mul_pow_window_zero _ _ _ (by omega)).symm
    · have hql : ((32 * (i:Int) - (k:Int)).toNat) / 32 = i - k / 32 := by omega
      rw [hql]
      have hA : ¬(32 * (i:Int) - (k:Int) < 0 ∧ (0:Int) ≤ (k:Int)) := by omega
      rw [guard_getD_eq D _ _ hA]
      rw [mul_pow_div_pow _ _ _ (by omega : k ≤ 32 * i)]
      rw [show 32 * i - k = 32 * (i - k / 32) from by omega]
      exact (extract_word0 D hb (i - k / 32)).symm
  · have hs1 : 1 ≤ k % 32 := by omega
    have hs31 : k % 32 ≤ 31 := by omega
    rw [show (32 - k % 32) % 32 = 32 - k % 32 from by omega]
    rw [if_pos (show (32 - k % 32) ≠ 0 from by omega)]
    rw [show 32 - (32 - k % 32) = k % 32 from by omega]
    by_cases him : 32 * i + 32 ≤ k
    · have hgr : ((32 * ((i:Int) + 1) - 1 - (k:Int) < 0 ∧ (0:Int) ≤ (k:Int)) ∨
          D.length ≤ ((32 * ((i:Int) + 1) - 1 - (k:Int)).toNat / 32)) :=
        Or.inl ⟨by omega, h0⟩
      have hgl : ((32 * (i:Int) - (k:Int) < 0 ∧ (0:Int) ≤ (k:Int)) ∨
          D.length ≤ ((32 * (i:Int) - (k:Int)).toNat / 32)) := Or.inl ⟨by omega, h0⟩
      rw [if_pos hgr, if_pos hgl]
      simp only [Nat.zero_mod, zero_mul, Nat.zero_div, add_zero]
      exact (mul_pow_window_zero _ _ _ him).symm
    · by_cases him2 : 32 * i < k
      · have hgl : ((32 * (i:Int) - (k:Int) < 0 ∧ (0:Int) ≤ (k:Int)) ∨
            D.length ≤ ((32 * (i:Int) - (k:Int)).toNat / 32)) := Or.inl ⟨by omega, h0⟩
        rw [if_pos hgl]
        have hqr : ((32 * ((i:Int) + 1) - 1 - (k:Int)).toNat) / 32 = 0 := by omega
        rw [hqr]
        have hA : ¬(32 * ((i:Int) + 1) - 1 - (k:Int) < 0 ∧ (0:Int) ≤ (k:Int)) := by omega
        rw [guard_getD_eq D _ _ hA, Nat.zero_div, add_zero]
        have hkk : k - 32 * i + 32 * i = k := by omega
        conv_rhs => rw [show magVal D * 2 ^ k = magVal D * 2 ^ (k - 32 * i) * 2 ^ (32 * i) from by
          rw [mul_assoc, ← pow_add, hkk]]
        rw [mul_pow_cancel]
        rw [show k - 32 * i = k % 32 from by omega]
        exact (mul_pow_low_window D (k % 32) hs1 hs31).symm
      · have hql : ((32 * (i:Int) - (k:Int)).toNat) / 32 = (32 * i - k) / 32 := by omega
        rw [hql]
        have hAl : ¬(32 * (i:Int) - (k:Int) < 0 ∧ (0:Int) ≤ (k:Int)) := by omega
        rw [guard_getD_eq D _ _ hAl]
        have hqr : ((32 * ((i:Int) + 1) - 1 - (k:Int)).toNat) / 32 = (32 * i - k) / 32 + 1 := by
          omega
        rw [hqr]
        have hAr : ¬(32 * ((i:Int) + 1) - 1 - (k:Int) < 0 ∧ (0:Int) ≤ (k:Int)) := by omega
        rw [guard_getD_eq D _ _ hAr]
        rw [mul_pow_div_pow _ _ _ (by omega : k ≤ 32 * i)]
        conv_rhs => rw [show 32 * i - k = 32 * ((32 * i - k) / 32) + (32 - k % 32) from by omega]
        rw [extract_word D hb _ _ (by omega) (by omega)]
        rw [show 32 - (32 - k % 32) = k % 32 from by omega]
        exact Nat.add_comm _ _

theorem magVal_range_window (N L : Nat) :
    magVal ((List.range L).map fun i => N / 2 ^ (32 * i) % 2 ^ 32) = N % 2 ^ (32 * L) := by
  induction L with
  | zero => simp [magVal, Nat.mod_one]
  | succ n ih =>
    rw [List.range_succ, List.map_append, magVal_append, ih]
    simp only [List.map_cons, List.map_nil, magVal, Nat.mul_zero, Nat.add_zero,
      List.length_map, List.length_range]
    rw [show (2:Nat) ^ (32 * (n + 1)) = 2 ^ (32 * n) * 2 ^ 32 from by ring]
    rw [Nat.mod_mul]

theorem shlB_eq_core (a : big_integer) (h : WfB a) (k : Nat) :
    shlB a k = normalize ⟨a.sign,
      (List.range (if 0 < (k:Int) then a.dig.length + (k:Int).toNat / 31 + 2
        else a.dig.length)).map (shiftWord a.dig (k:Int))⟩ := by
  have hmk : mkBI a.sign a.dig = a := by
    rcases a with ⟨s, d⟩
    exact normalize_eq_self ⟨s, d⟩ h
  have hneg : ¬((k:Int) < 0) := by omega
  simp only [shlB, bit_shift, hmk]
  rw [if_neg (fun hc : (k:Int) < 0 ∧ _ => hneg hc.1)]

theorem magVal_shl_words (a : big_integer) (h : WfB a) (k : Nat) :
    magVal ((List.range (if 0 < (k:Int) then a.dig.length + (k:Int).toNat / 31 + 2
        else a.dig.length)).map (shiftWord a.dig (k:Int))) = magVal a.dig * 2 ^ k := by
  have hb : boundedW a.dig := h.1.2.1
  rw [List.map_congr_left (fun i _ => shiftWord_left a.dig hb k i), magVal_range_window]
  apply Nat.mod_eq_of_lt
  have hM : magVal a.dig < 2 ^ (32 * a.dig.length) := magVal_lt _ hb
  by_cases hk : 0 < (k:Int)
  · rw [if_pos hk, show ((k:Int)).toNat = k from rfl]
    have hpk : (0:Nat) < 2 ^ k := by positivity
    calc magVal a.dig * 2 ^ k < 2 ^ (32 * a.dig.length) * 2 ^ k :=
          (Nat.mul_lt_mul_right hpk).mpr hM
      _ = 2 ^ (32 * a.dig.length + k) := by rw [← pow_add]
      _ ≤ 2 ^ (32 * (a.dig.length + k / 31 + 2)) :=
          Nat.pow_le_pow_right (by norm_num) (by omega)
  · rw [if_neg hk, show k = 0 from by omega]
    simpa using hM

theorem shlB_val (a : big_integer) (h : WfB a) (k : Nat) :
    val (shlB a k) = val a * 2 ^ k := by
  rw [shlB_eq_core a h k, val_normalize, magVal_shl_words a h k]
  unfold val
  by_cases hs : a.sign
  · rw [if_pos hs, if_pos hs]
    push_cast
    ring
  · rw [if_neg hs, if_neg hs]
    push_cast
    ring

theorem shlB_zero (a : big_integer) (h : WfB a) : shlB a 0 = a := by
  have hb : boundedW a.dig := h.1.2.1
  rw [shlB_eq_core a h 0]
  rw [if_neg (show ¬(0 < (((0:Nat)):Int)) from by omega)]
  have hw : (List.range a.dig.length).map (shiftWord a.dig ((0:Nat):Int)) = a.dig := by
    have hstep : ∀ i ∈ List.range a.dig.length,
        shiftWord a.dig ((0:Nat):Int) i = a.dig.getD i 0 := by
      intro i _
      rw [shiftWord_left a.dig hb 0 i, pow_zero, mul_one]
      exact extract_word0 a.dig hb i
    rw [List.map_congr_left hstep]
    exact range_map_getD a.dig
  rw [hw]
  exact normalize_eq_self a h

/-- C7: for every well-formed `big_integer` `a` (of either sign) and every
shift amount `k ≥ 0`, `a << k` denotes `a * 2^k`; in particular `a << 0`
returns `a` unchanged. -/
theorem claim_C7 (a : big_integer) (k : Nat) (h : WfB a) :
    val (shlB a k) = val a * 2 ^ k ∧ shlB a 0 = a :=
  ⟨shlB_val a h k, shlB_zero a h⟩

theorem claim_C7_witness :
    WfB (ofInt (-5)) ∧
      (val (shlB (ofInt (-5)) 3) = val (ofInt (-5)) * 2 ^ 3 ∧
        shlB (ofInt (-5)) 0 = ofInt (-5)) :=
  ⟨by decide, claim_C7 (ofInt (-5)) 3 (by decide)⟩

/-! ### Parsing: exact success condition of the string constructor -/

theorem chunkStep_some_digits : ∀ (n : Nat) (cs : List Char) (tm ta : Nat)
    (r : List Char) (tm2 ta2 : Nat), chunkStep n cs tm ta = some (r, tm2, ta2) →
    (∀ x ∈ cs.take n, isdigitC x = true) ∧ r = cs.drop n
  | 0, cs, tm, ta, r, tm2, ta2, h => by
    rw [chunkStep] at h
    simp only [Option.some.injEq, Prod.mk.injEq] at h
    exact ⟨by simp, h.1.symm⟩
  | n + 1, [], tm, ta, r, tm2, ta2, h => by
    rw [chunkStep] at h
    simp only [Option.some.injEq, Prod.mk.injEq] at h
    refine ⟨by simp, ?_⟩
    rw [← h.1]
    simp
  | n + 1, c :: cs, tm, ta, r, tm2, ta2, h => by
    rw [chunkStep] at h
    by_cases hc : isdigitC c = true
    · rw [if_pos hc] at h
      obtain ⟨hall, hr⟩ := chunkStep_some_digits n cs _ _ r tm2 ta2 h
      refine ⟨?_, hr⟩
      intro x hx
      have hx' : x ∈ c :: cs.take n := hx
      rcases List.mem_cons.mp hx' with hxe | hxm
      · rw [hxe]; exact hc
      · exact hall x hxm
    · rw [if_neg hc] at h
      exact Option.noConfusion h

theorem chunkStep_digits : ∀ (n : Nat) (cs : List Char) (tm ta : Nat),
    (∀ x ∈ cs.take n, isdigitC x = true) →
    ∃ tm2 ta2, chunkStep n cs tm ta = some (cs.drop n, tm2, ta2)
  | 0, cs, tm, ta, _ => ⟨tm, ta, by rw [chunkStep, List.drop_zero]⟩
  | n + 1, [], tm, ta, _ => ⟨tm, ta, by rw [chunkStep]; simp⟩
  | n + 1, c :: cs, tm, ta, h => by
    have hc : isdigitC c = true := h c (List.mem_cons_self _ _)
    obtain ⟨tm2, ta2, hp⟩ := chunkStep_digits n cs (tm * 10 % 2 ^ 32)
      ((10 * ta + (c.toNat - 48)) % 2 ^ 32) (fun x hx => h x (List.mem_cons_of_mem _ hx))
    exact ⟨tm2, ta2, by rw [chunkStep, if_pos hc]; exact hp⟩

theorem parseLoop_digits : ∀ (fuel : Nat) (cs : List Char) (acc : big_integer),
    cs.length < fuel → (∀ x ∈ cs, isdigitC x = true) →
    ∃ v, parseLoop fuel cs acc = some v
  | fuel, [], acc, _, _ => ⟨acc, by cases fuel <;> rfl⟩
  | 0, c :: cs, acc, hlen, _ => absurd hlen (by simp)
  | fuel + 1, c :: cs, acc, hlen, hdig => by
    obtain ⟨tm2, ta2, hp⟩ := chunkStep_digits 9 (c :: cs) 1 0
      (fun x hx => hdig x (List.mem_of_mem_take hx))
    obtain ⟨v, hv⟩ := parseLoop_digits fuel ((c :: cs).drop 9)
      (addB (mulB acc ⟨true, [tm2]⟩) ⟨true, [ta2]⟩)
      (by simp only [List.length_drop, List.length_cons] at *; omega)
      (fun x hx => hdig x (List.mem_of_mem_drop hx))
    exact ⟨v, by rw [parseLoop, hp]; exact hv⟩

theorem parseLoop_nondigit : ∀ (fuel : Nat) (cs : List Char) (acc : big_integer)
    (x : Char), x ∈ cs → isdigitC x = false → parseLoop fuel cs acc = none
  | fuel, [], acc, x, hx, _ => absurd hx (List.not_mem_nil x)
  | 0, c :: cs, acc, x, _, _ => rfl
  | fuel + 1, c :: cs, acc, x, hx, hnd => by
    rcases hcs : chunkStep 9 (c :: cs) 1 0 with _ | ⟨r, tm2, ta2⟩
    · rw [parseLoop, hcs]
    · obtain ⟨hall, hr⟩ := chunkStep_some_digits 9 (c :: cs) 1 0 r tm2 ta2 hcs
      have hta : (c :: cs).take 9 ++ (c :: cs).drop 9 = c :: cs :=
        List.take_append_drop 9 (c :: cs)
      have hx2 : x ∈ (c :: cs).take 9 ++ (c :: cs).drop 9 := by rw [hta]; exact hx
      rcases List.mem_append.mp hx2 with h1 | h2
      · exact absurd (hall x h1) (by simp [hnd])
      · rw [parseLoop, hcs, hr]
        exact parseLoop_nondigit fuel ((c :: cs).drop 9) _ x h2 hnd

/-- C9 (amended): construction from a decimal string succeeds exactly when
the string is non-empty, starts with `-`, `+` or a digit, and every
character after the optional leading sign is a digit; in particular a
string that is only a sign parses successfully (to zero) instead of
raising. -/
theorem claim_C9 (s : List Char) :
    (ofString s).isSome = true ↔
      ∃ c cs, s = c :: cs ∧ (c = '-' ∨ c = '+' ∨ isdigitC c = true) ∧
        ∀ x ∈ (if isdigitC c then c :: cs else cs), isdigitC x = true := by
  rcases s with _ | ⟨c, cs⟩
  · simp [ofString]
  · rw [ofString]
    by_cases hg : c ≠ '-' ∧ c ≠ '+' ∧ isdigitC c = false
    · rw [if_pos hg]
      refine iff_of_false (by simp) ?_
      rintro ⟨c', cs', heq, hsign, -⟩
      injection heq with h1 h2
      rcases hsign with h | h | h
      · exact hg.1 (h1.trans h)
      · exact hg.2.1 (h1.trans h)
      · rw [← h1, hg.2.2] at h
        exact Bool.noConfusion h
    · rw [if_neg hg]
      have hsc : c = '-' ∨ c = '+' ∨ isdigitC c = true := by
        by_cases h1 : c = '-'
        · exact Or.inl h1
        by_cases h2 : c = '+'
        · exact Or.inr (Or.inl h2)
        cases hb : isdigitC c
        · exact absurd ⟨h1, h2, hb⟩ hg
        · exact Or.inr (Or.inr rfl)
      rcases hp : parseLoop ((c :: cs).length + 1) (if isdigitC c then c :: cs else cs) zeroB
        with _ | v
      · refine iff_of_false (by simp [hp]) ?_
        rintro ⟨c', cs', heq, -, hdig⟩
        injection heq with h1 h2
        subst h1
        subst h2
        obtain ⟨v, hv⟩ := parseLoop_digits ((c :: cs).length + 1)
          (if isdigitC c then c :: cs else cs) zeroB
          (by split <;> simp [Nat.lt_succ_iff]) hdig
        rw [hp] at hv
        exact Option.noConfusion hv
      · refine iff_of_true (by simp [hp]) ?_
        refine ⟨c, cs, rfl, hsc, ?_⟩
        intro x hx
        cases hb : isdigitC x
        · have hnone : parseLoop ((c :: cs).length + 1)
              (if isdigitC c then c :: cs else cs) zeroB = none :=
            parseLoop_nondigit _ _ _ x hx hb
          rw [hp] at hnone
          exact Option.noConfusion hnone
        · rfl

/-- C9, refutation of the frozen wording: the source accepts a string that
is only a sign with no digits, returning zero, instead of raising. -/
theorem claim_C9_counterexample :
    ofString ['-'] = some zeroB ∧ ofString ['+'] = some zeroB := by decide

/-- C8: under the two's-complement bitwise engine, `a & -1 == a`,
`a | -1 == -1` and `a ^ a == 0` for every well-formed `a`, and concretely
`parse("7") & BigInt(-1) == BigInt(7)`. -/
theorem claim_C8 (a : big_integer) (h : WfB a) :
    compareB (andB a (ofInt (-1))) a = 0 ∧
    compareB (orB a (ofInt (-1))) (ofInt (-1)) = 0 ∧
    compareB (xorB a a) zeroB = 0 ∧
    Option.map (fun x => compareB (andB x (ofInt (-1))) (ofInt 7)) (ofString ['7']) =
      some 0 := by
  have hm1 : ofInt (-1) = (⟨false, [1]⟩ : big_integer) := by decide
  refine ⟨?_, ?_, ?_, ?_⟩
  · rw [hm1, andB_minusOne a h]
    exact compare_self a
  · rw [hm1, orB_minusOne a h]
    exact compare_self _
  · rw [xorB_self a]
    exact compare_self _
  · decide

theorem claim_C8_witness :
    WfB (ofInt (-6)) ∧
      (compareB (andB (ofInt (-6)) (ofInt (-1))) (ofInt (-6)) = 0 ∧
        compareB (orB (ofInt (-6)) (ofInt (-1))) (ofInt (-1)) = 0 ∧
        compareB (xorB (ofInt (-6)) (ofInt (-6))) zeroB = 0 ∧
        Option.map (fun x => compareB (andB x (ofInt (-1))) (ofInt 7)) (ofString ['7']) =
          some 0) :=
  ⟨by decide, claim_C8 (ofInt (-6)) (by decide)⟩

/-- C10: a zero divisor makes `operator/=` and `operator%=` raise before any
write to the receiver: the run returns the exception (`none`) and the
receiver still holds exactly its prior value. -/
theorem claim_C10 (a b : big_integer) (h : is_zero b = true) :
    divAssignRun a b = (none, a) ∧ modAssignRun a b = (none, a) := by
  unfold divAssignRun modAssignRun
  rw [if_pos h, if_pos h]
  exact ⟨rfl, rfl⟩

theorem claim_C10_witness :
    is_zero zeroB = true ∧
      (divAssignRun (ofInt 7) zeroB = (none, ofInt 7) ∧
        modAssignRun (ofInt 7) zeroB = (none, ofInt 7)) :=
  ⟨by decide, claim_C10 (ofInt 7) zeroB (by decide)⟩

/-! ### Code bugs: concrete failing executions -/

/-- C1, code bug: on `a = 2·2^128 + 2^96 − 2^64` and `b = 2^64 + 2^32 − 1`
the division operator returns the quotient `2^64`, yet even `(2^64 + 1)·b`
still fits below `a`, so the result is not the quotient truncated toward
zero (the long-division estimate `2^32` is narrowed to `0` and the single
correction step cannot recover). -/
theorem claim_C1_bug :
    divB ⟨true, [0, 0, 4294967295, 0, 2]⟩ ⟨true, [4294967295, 0, 1]⟩ =
      some ⟨true, [0, 0, 1]⟩ ∧
    (val ⟨true, [0, 0, 1]⟩ + 1) * val ⟨true, [4294967295, 0, 1]⟩ ≤
      val ⟨true, [0, 0, 4294967295, 0, 2]⟩ := by decide

/-- C2, code bug: `5 - 5` and `5 + (-5)` pop the only magnitude word,
producing the corrupt state `⟨true, []⟩`, which compares below zero instead
of equal to it. -/
theorem claim_C2_bug :
    subB (ofInt 5) (ofInt 5) = ⟨true, []⟩ ∧
    addB (ofInt 5) (negB (ofInt 5)) = ⟨true, []⟩ ∧
    compareB (subB (ofInt 5) (ofInt 5)) zeroB = -1 ∧
    compareB (addB (ofInt 5) (negB (ofInt 5))) zeroB = -1 := by decide

/-- C3, code bug: the public subtraction operator can return a value whose
magnitude word sequence is empty, violating the representation invariant. -/
theorem claim_C3_bug :
    (subB (ofInt 5) (ofInt 5)).dig = [] ∧ ¬WfB (subB (ofInt 5) (ofInt 5)) := by
  decide

/-- C4, code bug: on `a = 2·2^128 + 2^96 − 2^64`, `b = 2^64 + 2^32 − 1` the
long-division estimates are `[2, 2^32, 2^32]`: an estimate can reach `2^32`,
which does not fit one 32-bit word (it is narrowed to `0`), and the single
correction step then yields the wrong quotient digit. -/
theorem claim_C4_bug :
    (div_mod_long ⟨true, [0, 0, 4294967295, 0, 2]⟩ ⟨true, [4294967295, 0, 1]⟩).2.2 =
      [2, 4294967296, 4294967296] ∧
    (div_mod_long ⟨true, [0, 0, 4294967295, 0, 2]⟩ ⟨true, [4294967295, 0, 1]⟩).1 =
      ⟨true, [0, 0, 1]⟩ ∧
    ¬(4294967296 < 2 ^ 32) := by decide

/-- C6, code bug: `-2 >> 1` evaluates to `-2` (the decrement is applied even
when the shifted-out bits are all zero), while the floor of `-2 / 2^1`
is `-1`. -/
theorem claim_C6_bug :
    val (shrB (ofInt (-2)) 1) = -2 ∧ Int.fdiv (-2) (2 ^ 1) = -1 := by decide

/-! ### Single-word multiplication -/

theorem rippleCarry_zero (l : List Nat) : rippleCarry l 0 = (l, 0) := by
  cases l <;> rfl

theorem rippleCarry_nil (c : Nat) : rippleCarry [] c = ([], c) := by
  cases c <;> rfl

theorem rippleCarry_cons (x : Nat) (xs : List Nat) (c : Nat) (hc : c ≠ 0) :
    rippleCarry (x :: xs) c =
      ((x + c) % 2 ^ 32 :: (rippleCarry xs ((x + c) / 2 ^ 32)).1,
        (rippleCarry xs ((x + c) / 2 ^ 32)).2) := by
  cases c
  · exact absurd rfl hc
  · rfl

theorem rippleCarry_length : ∀ (l : List Nat) (c : Nat),
    (rippleCarry l c).1.length = l.length
  | l, 0 => by rw [rippleCarry_zero]
  | [], c + 1 => by rw [rippleCarry_nil]
  | x :: xs, c + 1 => by
    rw [rippleCarry_cons _ _ _ (Nat.succ_ne_zero c)]
    simp only [List.length_cons]
    rw [rippleCarry_length xs _]

theorem rippleCarry_val : ∀ (l : List Nat) (c : Nat),
    magVal (rippleCarry l c).1 + 2 ^ (32 * l.length) * (rippleCarry l c).2 =
      magVal l + c
  | l, 0 => by rw [rippleCarry_zero]; simp
  | [], c + 1 => by rw [rippleCarry_nil]; simp [magVal]
  | x :: xs, c + 1 => by
    rw [rippleCarry_cons _ _ _ (Nat.succ_ne_zero c)]
    simp only [magVal, List.length_cons, Nat.succ_eq_add_one]
    have ih := rippleCarry_val xs ((x + (c + 1)) / 2 ^ 32)
    have hdm := Nat.div_add_mod (x + (c + 1)) (2 ^ 32)
    rw [show 32 * (xs.length + 1) = 32 + 32 * xs.length from by ring, pow_add, mul_assoc]
    omega

theorem rippleCarry_bounded : ∀ (l : List Nat) (c : Nat), boundedW l →
    boundedW (rippleCarry l c).1
  | l, 0, h => by rw [rippleCarry_zero]; exact h
  | [], c + 1, h => by rw [rippleCarry_nil]; exact h
  | x :: xs, c + 1, h => by
    rw [rippleCarry_cons _ _ _ (Nat.succ_ne_zero c)]
    intro y hy
    rcases List.mem_cons.mp hy with rfl | hy
    · exact Nat.mod_lt _ (by positivity)
    · exact rippleCarry_bounded xs _ (fun z hz => h z (List.mem_cons_of_mem _ hz)) y hy

theorem set_snoc (A : List Nat) (d v : Nat) : (A ++ [d]).set A.length v = A ++ [v] := by
  induction A with
  | nil => rfl
  | cons x xs ih => simpa [List.set] using ih

theorem set_snoc2 (A : List Nat) (d v : Nat) (n : Nat) (h : n = A.length) :
    (A ++ [d]).set n v = A ++ [v] := by
  rw [h, set_snoc]

theorem mulStep_one (w : Nat) (dig : List Nat) (j : Nat) (hkL : j < dig.length) :
    mulStep [w] dig (j + 1) =
      dig.take j ++ [dig.getD j 0 * w % 2 ^ 32] ++
        (rippleCarry (dig.drop (j + 1)) (dig.getD j 0 * w / 2 ^ 32)).1 := by
  unfold mulStep
  have hmin : min (j + 1) ([w] : List Nat).length = 1 := by simp
  rw [hmin]
  have hinner : mulInner [w] (j + 1) 1 dig 0 0 0 =
      ((rippleAt dig (j + 1) (dig.getD (j + 1 - 1 - 0) 0 * [w].getD 0 0 / 2 ^ 32)).1,
        dig.getD (j + 1 - 1 - 0) 0 * [w].getD 0 0 % 2 ^ 32) := rfl
  rw [hinner]
  simp only [Nat.add_sub_cancel, Nat.sub_zero, List.getD_cons_zero]
  unfold rippleAt
  rw [List.set_append_left _ _ (by rw [List.length_take]; omega)]
  congr 1
  rw [List.take_succ, List.getElem?_eq_getElem hkL]
  simp only [Option.toList_some]
  rw [set_snoc2 _ _ _ _ (by rw [List.length_take]; omega)]

theorem mulOuter_one : ∀ (k : Nat) (w : Nat) (dig : List Nat), k ≤ dig.length →
    boundedW dig →
    w * magVal (dig.take k) + 2 ^ (32 * k) * magVal (dig.drop k) <
      2 ^ (32 * dig.length) →
    magVal (mulOuter [w] k dig) =
        w * magVal (dig.take k) + 2 ^ (32 * k) * magVal (dig.drop k)
      ∧ (mulOuter [w] k dig).length = dig.length ∧ boundedW (mulOuter [w] k dig)
  | 0, w, dig, _, hb, _ => by
    rw [mulOuter]
    refine ⟨by simp [magVal], rfl, hb⟩
  | k + 1, w, dig, hk, hb, hband => by
    rw [mulOuter]
    have hkL : k < dig.length := by omega
    rw [mulStep_one w dig k hkL]
    set d := dig.getD k 0 with hd
    set R := rippleCarry (dig.drop (k + 1)) (d * w / 2 ^ 32) with hR
    set dig2 := dig.take k ++ [d * w % 2 ^ 32] ++ R.1 with hdig2
    have hlenR : R.1.length = dig.length - (k + 1) := by
      rw [hR, rippleCarry_length, List.length_drop]
    have f1 : dig2.length = dig.length := by
      rw [hdig2]
      simp only [List.length_append, List.length_take, List.length_cons,
        List.length_nil, hlenR]
      omega
    have f2 : boundedW dig2 := by
      rw [hdig2]
      rw [boundedW_append, boundedW_append]
      refine ⟨⟨fun x hx => hb x (List.mem_of_mem_take hx), ?_⟩, ?_⟩
      · intro x hx
        rcases List.mem_singleton.mp hx with rfl
        exact Nat.mod_lt _ (by positivity)
      · exact rippleCarry_bounded _ _ (fun z hz => hb z (List.mem_of_mem_drop hz))
    have f3 : dig2.take k = dig.take k := by
      rw [hdig2, List.append_assoc]
      exact List.take_left' (by rw [List.length_take]; omega)
    have f4 : dig2.drop k = (d * w % 2 ^ 32) :: R.1 := by
      rw [hdig2, List.append_assoc, List.drop_left' (by rw [List.length_take]; omega)]
      rw [List.singleton_append]
    have htake1 : dig.take (k + 1) = dig.take k ++ [d] := by
      rw [List.take_succ, List.getElem?_eq_getElem hkL]
      simp only [Option.toList_some]
      rw [hd, List.getD_eq_getElem dig 0 hkL]
    have htakeVal : magVal (dig.take (k + 1)) = magVal (dig.take k) + 2 ^ (32 * k) * d := by
      rw [htake1, magVal_append, List.length_take]
      have : min k dig.length = k := by omega
      rw [this]
      simp [magVal]
    have hdropVal : magVal (dig.drop k) = d + 2 ^ 32 * magVal (dig.drop (k + 1)) := by
      rw [List.drop_eq_getElem_cons hkL, magVal]
      rw [hd, List.getD_eq_getElem dig 0 hkL]
    have hnc : magVal (dig.drop (k + 1)) + d * w / 2 ^ 32 <
        2 ^ (32 * (dig.length - (k + 1))) := by
      have e1 : (2:Nat) ^ (32 * dig.length) =
          2 ^ (32 * (k + 1)) * 2 ^ (32 * (dig.length - (k + 1))) := by
        rw [← pow_add]
        congr 1
        omega
      have e3 : 2 ^ (32 * (k + 1)) * (d * w / 2 ^ 32) ≤ 2 ^ (32 * k) * (d * w) := by
        rw [show 32 * (k + 1) = 32 * k + 32 from by ring, pow_add, mul_assoc]
        refine Nat.mul_le_mul_left _ ?_
        calc 2 ^ 32 * (d * w / 2 ^ 32) = (d * w / 2 ^ 32) * 2 ^ 32 := by ring
          _ ≤ d * w := Nat.div_mul_le_self _ _
      have e2 : 2 ^ (32 * (k + 1)) * (magVal (dig.drop (k + 1)) + d * w / 2 ^ 32) ≤
          w * magVal (dig.take (k + 1)) + 2 ^ (32 * (k + 1)) * magVal (dig.drop (k + 1)) := by
        rw [htakeVal, mul_add]
        have e4 : w * (magVal (dig.take k) + 2 ^ (32 * k) * d) =
            w * magVal (dig.take k) + 2 ^ (32 * k) * (d * w) := by ring
        rw [e4]
        omega
      have e5 := lt_of_le_of_lt e2 hband
      rw [e1] at e5
      exact Nat.lt_of_mul_lt_mul_left e5
    have hR2 : R.2 = 0 := by
      have hval := rippleCarry_val (dig.drop (k + 1)) (d * w / 2 ^ 32)
      rw [List.length_drop, ← hR] at hval
      by_contra hne
      have h1 : 1 ≤ R.2 := Nat.one_le_iff_ne_zero.mpr hne
      have h2 : 2 ^ (32 * (dig.length - (k + 1))) ≤
          2 ^ (32 * (dig.length - (k + 1))) * R.2 := Nat.le_mul_of_pos_right _ h1
      omega
    have hRval : magVal R.1 = magVal (dig.drop (k + 1)) + d * w / 2 ^ 32 := by
      have hval := rippleCarry_val (dig.drop (k + 1)) (d * w / 2 ^ 32)
      rw [List.length_drop, ← hR, hR2] at hval
      simpa using hval
    have hdm := Nat.div_add_mod (d * w) (2 ^ 32)
    have hkey : w * magVal (dig2.take k) + 2 ^ (32 * k) * magVal (dig2.drop k) =
        w * magVal (dig.take (k + 1)) + 2 ^ (32 * (k + 1)) * magVal (dig.drop (k + 1)) := by
      rw [f3, f4, magVal, hRval]
      rw [htakeVal, show 32 * (k + 1) = 32 * k + 32 from by ring, pow_add]
      calc w * magVal (dig.take k) +
            2 ^ (32 * k) * (d * w % 2 ^ 32 +
              2 ^ 32 * (magVal (dig.drop (k + 1)) + d * w / 2 ^ 32))
          = w * magVal (dig.take k) +
            2 ^ (32 * k) * (d * w % 2 ^ 32 + 2 ^ 32 * (d * w / 2 ^ 32)) +
            2 ^ (32 * k) * 2 ^ 32 * magVal (dig.drop (k + 1)) := by ring
        _ = w * magVal (dig.take k) + 2 ^ (32 * k) * (d * w) +
            2 ^ (32 * k) * 2 ^ 32 * magVal (dig.drop (k + 1)) := by
            rw [show d * w % 2 ^ 32 + 2 ^ 32 * (d * w / 2 ^ 32) = d * w from by omega]
        _ = w * (magVal (dig.take k) + 2 ^ (32 * k) * d) +
            2 ^ (32 * k) * 2 ^ 32 * magVal (dig.drop (k + 1)) := by ring
    obtain ⟨ihv, ihl, ihb⟩ := mulOuter_one k w dig2 (by omega) f2 (by rw [hkey, f1]; exact hband)
    refine ⟨?_, ?_, ?_⟩
    · rw [ihv, hkey]
    · rw [ihl, f1]
    · exact ihb

theorem mulB_one (a : big_integer) (h : WfB a) (w : Nat) (hw : w < 2 ^ 32) :
    magVal (mulB a ⟨true, [w]⟩).dig = magVal a.dig * w ∧ WfB (mulB a ⟨true, [w]⟩) ∧
      (a.sign = true → (mulB a ⟨true, [w]⟩).sign = true) := by
  have hb : boundedW a.dig := h.1.2.1
  have hM : magVal a.dig < 2 ^ (32 * a.dig.length) := magVal_lt _ hb
  unfold mulB
  simp only
  set dig0 : List Nat := a.dig ++ List.replicate ([w] : List Nat).length 0 with hdig0
  have hlen0 : dig0.length = a.dig.length + 1 := by
    rw [hdig0]
    simp
  have hmag0 : magVal dig0 = magVal a.dig := by
    rw [hdig0, magVal_append]
    simp [magVal_replicate, magVal]
  have hb0 : boundedW dig0 := by
    rw [hdig0, boundedW_append]
    exact ⟨hb, boundedW_replicate _⟩
  have hband : w * magVal (dig0.take dig0.length) +
      2 ^ (32 * dig0.length) * magVal (dig0.drop dig0.length) < 2 ^ (32 * dig0.length) := by
    rw [List.take_length, List.drop_length]
    simp only [magVal, Nat.mul_zero, Nat.add_zero]
    rw [hmag0, hlen0, show 32 * (a.dig.length + 1) = 32 * a.dig.length + 32 from by ring,
      pow_add]
    calc w * magVal a.dig < 2 ^ 32 * 2 ^ (32 * a.dig.length) := by
          apply Nat.mul_lt_mul_of_lt_of_le hw (Nat.le_of_lt hM)
          positivity
      _ = 2 ^ (32 * a.dig.length) * 2 ^ 32 := by ring
  have hklen : a.dig.length + ([w] : List Nat).length = dig0.length := by
    rw [hlen0]
    simp
  rw [hklen]
  obtain ⟨hv, hl, hbnd⟩ := mulOuter_one dig0.length w dig0 le_rfl hb0 hband
  rw [List.take_length, List.drop_length] at hv
  simp only [magVal, Nat.mul_zero, Nat.add_zero] at hv
  have hne : mulOuter [w] dig0.length dig0 ≠ [] := by
    intro hc
    rw [hc] at hl
    rw [hlen0] at hl
    simp at hl
  refine ⟨?_, ?_, ?_⟩
  · rw [normalize_magVal]
    simp only
    rw [hv, hmag0]
    ring
  · exact normalize_wf _ _ hne hbnd
  · intro hs
    rw [normalize_sign]
    split
    · rfl
    · rw [hs]
      rfl

/-! ### Decimal digit strings and the parser's value -/

theorem isdigit_toNat (c : Char) (h : isdigitC c = true) :
    48 ≤ c.toNat ∧ c.toNat ≤ 57 := by
  unfold isdigitC at h
  rw [Bool.and_eq_true, decide_eq_true_eq, decide_eq_true_eq] at h
  exact ⟨h.1, h.2⟩

theorem dval_le (c : Char) (h : isdigitC c = true) : dval c ≤ 9 := by
  have := isdigit_toNat c h
  unfold dval
  omega

theorem decVal_from (a : Nat) : ∀ (l : List Char),
    l.foldl (fun acc c => 10 * acc + dval c) a = a * 10 ^ l.length + decVal l
  | [] => by simp [decVal]
  | c :: cs => by
    rw [List.foldl_cons, decVal_from (10 * a + dval c) cs]
    have h2 : decVal (c :: cs) = (10 * 0 + dval c) * 10 ^ cs.length + decVal cs := by
      show List.foldl _ _ _ = _
      rw [List.foldl_cons, decVal_from (10 * 0 + dval c) cs]
    rw [h2, List.length_cons, pow_succ]
    ring

theorem decVal_cons (c : Char) (cs : List Char) :
    decVal (c :: cs) = dval c * 10 ^ cs.length + decVal cs := by
  show List.foldl _ _ _ = _
  rw [List.foldl_cons, decVal_from (10 * 0 + dval c) cs]
  ring_nf

theorem decVal_append (A B : List Char) :
    decVal (A ++ B) = decVal A * 10 ^ B.length + decVal B := by
  unfold decVal
  rw [List.foldl_append]
  exact decVal_from _ B

theorem decVal_lt : ∀ (l : List Char), (∀ x ∈ l, isdigitC x = true) →
    decVal l < 10 ^ l.length
  | [], _ => by simp [decVal]
  | c :: cs, h => by
    rw [decVal_cons, List.length_cons, pow_succ]
    have h1 : dval c ≤ 9 := dval_le c (h c (List.mem_cons_self _ _))
    have h2 : decVal cs < 10 ^ cs.length :=
      decVal_lt cs (fun x hx => h x (List.mem_cons_of_mem _ hx))
    calc dval c * 10 ^ cs.length + decVal cs
        ≤ 9 * 10 ^ cs.length + decVal cs := by
          exact Nat.add_le_add_right (Nat.mul_le_mul_right _ h1) _
      _ < 9 * 10 ^ cs.length + 10 ^ cs.length := by omega
      _ = 10 ^ cs.length * 10 := by ring
      _ ≤ 10 ^ cs.length * 10 := le_rfl

theorem chunkStep_val : ∀ (n : Nat) (cs : List Char) (tm ta : Nat),
    (∀ x ∈ cs.take n, isdigitC x = true) →
    tm * 10 ^ n ≤ 10 ^ 9 → ta < tm →
    chunkStep n cs tm ta =
      some (cs.drop n, tm * 10 ^ min n cs.length,
        ta * 10 ^ min n cs.length + decVal (cs.take n))
  | 0, cs, tm, ta, _, _, _ => by
    rw [chunkStep]
    simp [decVal]
  | n + 1, [], tm, ta, _, _, _ => by
    rw [chunkStep]
    simp [decVal]
  | n + 1, c :: cs, tm, ta, hdig, htm, hta => by
    have hc : isdigitC c = true := hdig c (List.mem_cons_self _ _)
    have hd9 : dval c ≤ 9 := dval_le c hc
    have h10 : (10:Nat) ≤ 10 ^ (n + 1) := by
      calc (10:Nat) = 10 ^ 1 := (pow_one 10).symm
        _ ≤ 10 ^ (n + 1) := Nat.pow_le_pow_right (by norm_num) (by omega)
    have htm10 : tm * 10 ≤ 10 ^ 9 :=
      le_trans (Nat.mul_le_mul_left tm h10) htm
    have htmmod : tm * 10 % 2 ^ 32 = tm * 10 :=
      Nat.mod_eq_of_lt (lt_of_le_of_lt htm10 (by norm_num))
    have htamod : (10 * ta + (c.toNat - 48)) % 2 ^ 32 = 10 * ta + dval c := by
      have : 10 * ta + dval c < tm * 10 := by unfold dval at *; omega
      show (10 * ta + dval c) % 2 ^ 32 = 10 * ta + dval c
      exact Nat.mod_eq_of_lt (lt_of_lt_of_le this (le_trans htm10 (by norm_num)))
    rw [chunkStep, if_pos hc, htmmod, htamod]
    have ih := chunkStep_val n cs (tm * 10) (10 * ta + dval c)
      (fun x hx => hdig x (List.mem_cons_of_mem _ hx))
      (by rw [mul_assoc, ← pow_succ']; exact htm)
      (by unfold dval at *; omega)
    rw [ih]
    have hmin : min (n + 1) (c :: cs).length = min n cs.length + 1 := by
      simp [Nat.succ_min_succ]
    rw [hmin]
    have htake : decVal ((c :: cs).take (n + 1)) =
        dval c * 10 ^ min n cs.length + decVal (cs.take n) := by
      show decVal (c :: cs.take n) = _
      rw [decVal_cons, List.length_take]
    rw [htake]
    have e1 : tm * 10 * 10 ^ min n cs.length = tm * 10 ^ (min n cs.length + 1) := by
      rw [pow_succ]
      ring
    have e2 : (10 * ta + dval c) * 10 ^ min n cs.length + decVal (cs.take n) =
        ta * 10 ^ (min n cs.length + 1) +
          (dval c * 10 ^ min n cs.length + decVal (cs.take n)) := by
      rw [pow_succ]
      ring
    rw [e1, e2]
    rfl

theorem big_one_ta_norm (ta : Nat) (h : ta < 2 ^ 32) (hne : ta ≠ 0) :
    NormList ([ta] : List Nat) := by
  refine ⟨List.cons_ne_nil _ _, ?_, ?_⟩
  · intro x hx
    rcases List.mem_singleton.mp hx with rfl
    exact h
  · intro hlast
    simp [List.getLast?] at hlast
    exact absurd hlast hne

theorem addSameCore_sign_true (a rhs : big_integer) (h : a.sign = true) :
    (addSameCore a rhs).sign = true := by
  unfold addSameCore
  rw [normalize_sign]
  split
  · rfl
  · exact h

theorem parseLoop_val : ∀ (fuel : Nat) (cs : List Char) (acc : big_integer),
    cs.length < fuel → (∀ x ∈ cs, isdigitC x = true) → WfB acc → acc.sign = true →
    ∃ v, parseLoop fuel cs acc = some v ∧ WfB v ∧ v.sign = true ∧
      magVal v.dig = magVal acc.dig * 10 ^ cs.length + decVal cs
  | fuel, [], acc, _, _, hw, hs =>
    ⟨acc, by cases fuel <;> rfl, hw, hs, by simp [decVal]⟩
  | 0, c :: cs, acc, hlen, _, _, _ => absurd hlen (by simp)
  | fuel + 1, c :: cs, acc, hlen, hdig, hw, hs => by
    have hcs := chunkStep_val 9 (c :: cs) 1 0
      (fun x hx => hdig x (List.mem_of_mem_take hx)) (by norm_num) (by norm_num)
    simp only [one_mul, zero_mul, zero_add] at hcs
    set p := min 9 (c :: cs).length with hp
    set ta := decVal ((c :: cs).take 9) with hta
    have hp9 : p ≤ 9 := by rw [hp]; omega
    have hwpow : (10:Nat) ^ p < 2 ^ 32 :=
      lt_of_le_of_lt (Nat.pow_le_pow_right (by norm_num) hp9) (by norm_num)
    have htalt : ta < 2 ^ 32 := by
      have h1 : ta < 10 ^ ((c :: cs).take 9).length :=
        decVal_lt _ (fun x hx => hdig x (List.mem_of_mem_take hx))
      have h2 : ((c :: cs).take 9).length ≤ 9 := by
        rw [List.length_take]
        omega
      calc ta < 10 ^ ((c :: cs).take 9).length := h1
        _ ≤ 10 ^ 9 := Nat.pow_le_pow_right (by norm_num) h2
        _ < 2 ^ 32 := by norm_num
    obtain ⟨hm1, hm2, hm3⟩ := mulB_one acc hw (10 ^ p) hwpow
    set acc1 := mulB acc ⟨true, [10 ^ p]⟩ with hacc1
    have hacc1s : acc1.sign = true := hm3 hs
    by_cases hta0 : ta = 0
    · -- the addend is zero: addB returns the product unchanged
      have hz : is_zero (⟨true, [ta]⟩ : big_integer) = true := by
        rw [hta0]
        rfl
      have haddeq : addB acc1 ⟨true, [ta]⟩ = acc1 := by
        unfold addB
        rw [if_pos hz]
      obtain ⟨v, hv, hvw, hvs, hvval⟩ := parseLoop_val fuel ((c :: cs).drop 9)
        (addB acc1 ⟨true, [ta]⟩)
        (by simp only [List.length_drop, List.length_cons] at *; omega)
        (fun x hx => hdig x (List.mem_of_mem_drop hx))
        (by rw [haddeq]; exact hm2) (by rw [haddeq]; exact hacc1s)
      refine ⟨v, ?_, hvw, hvs, ?_⟩
      · rw [parseLoop, hcs]
        exact hv
      · rw [hvval, haddeq, hm1]
        have hsplit : decVal (c :: cs) =
            decVal ((c :: cs).take 9) * 10 ^ ((c :: cs).drop 9).length +
              decVal ((c :: cs).drop 9) := by
          conv_lhs => rw [← List.take_append_drop 9 (c :: cs)]
          exact decVal_append _ _
        rw [hsplit, ← hta, hta0]
        have hlen9 : p + ((c :: cs).drop 9).length = (c :: cs).length := by
          rw [hp, List.length_drop]
          simp only [List.length_cons]
          omega
        rw [← hlen9, pow_add]
        ring
    · -- non-zero addend: same-sign addition
      have hz : is_zero (⟨true, [ta]⟩ : big_integer) = false := by
        unfold is_zero
        simp [hta0]
      have hrw : WfB (⟨true, [ta]⟩ : big_integer) :=
        ⟨big_one_ta_norm ta htalt hta0, fun _ => rfl⟩
      have haddeq : addB acc1 ⟨true, [ta]⟩ = addSameCore acc1 ⟨true, [ta]⟩ := by
        unfold addB
        rw [hz]
        rw [if_neg (by simp), if_pos (by rw [hacc1s])]
      have haddmag : magVal (addB acc1 ⟨true, [ta]⟩).dig = magVal acc1.dig + ta := by
        rw [haddeq, addSameCore_magVal acc1 _ hm2.1 hrw.1]
        simp [magVal]
      obtain ⟨v, hv, hvw, hvs, hvval⟩ := parseLoop_val fuel ((c :: cs).drop 9)
        (addB acc1 ⟨true, [ta]⟩)
        (by simp only [List.length_drop, List.length_cons] at *; omega)
        (fun x hx => hdig x (List.mem_of_mem_drop hx))
        (by rw [haddeq]; exact addSameCore_wf _ _)
        (by rw [haddeq]; exact addSameCore_sign_true _ _ hacc1s)
      refine ⟨v, ?_, hvw, hvs, ?_⟩
      · rw [parseLoop, hcs]
        exact hv
      · rw [hvval, haddmag, hm1]
        have hsplit : decVal (c :: cs) =
            decVal ((c :: cs).take 9) * 10 ^ ((c :: cs).drop 9).length +
              decVal ((c :: cs).drop 9) := by
          conv_lhs => rw [← List.take_append_drop 9 (c :: cs)]
          exact decVal_append _ _
        rw [hsplit, ← hta]
        have hlen9 : p + ((c :: cs).drop 9).length = (c :: cs).length := by
          rw [hp, List.length_drop]
          simp only [List.length_cons]
          omega
        rw [← hlen9, pow_add]
        ring

theorem zeroB_wf : WfB zeroB :=
  ⟨⟨List.cons_ne_nil _ _, fun x hx => by
    rcases List.mem_singleton.mp hx with rfl
    positivity, fun _ => rfl⟩, fun _ => rfl⟩

theorem ofString_cons_red (c : Char) (cs : List Char) (v0 : big_integer)
    (hguard : ¬(c ≠ '-' ∧ c ≠ '+' ∧ isdigitC c = false))
    (hv0 : parseLoop ((c :: cs).length + 1) (if isdigitC c then c :: cs else cs) zeroB =
      some v0) :
    ofString (c :: cs) =
      some (if is_zero ⟨decide (c ≠ '-'), v0.dig⟩ = true
        then ⟨true, v0.dig⟩ else ⟨decide (c ≠ '-'), v0.dig⟩) := by
  rw [ofString, if_neg hguard, hv0]

theorem ofString_val (c : Char) (cs : List Char)
    (hsign : c = '-' ∨ c = '+' ∨ isdigitC c = true)
    (hdig : ∀ x ∈ (if isdigitC c then c :: cs else cs), isdigitC x = true) :
    ∃ v, ofString (c :: cs) = some v ∧ WfB v ∧
      magVal v.dig = decVal (if isdigitC c then c :: cs else cs) ∧
      (v.sign = false ↔ c = '-' ∧ decVal (if isdigitC c then c :: cs else cs) ≠ 0) := by
  have hguard : ¬(c ≠ '-' ∧ c ≠ '+' ∧ isdigitC c = false) := by
    rintro ⟨h1, h2, h3⟩
    rcases hsign with h | h | h
    · exact h1 h
    · exact h2 h
    · rw [h3] at h
      exact Bool.noConfusion h
  obtain ⟨v0, hv0, hv0w, hv0s, hv0val⟩ := parseLoop_val ((c :: cs).length + 1)
    (if isdigitC c then c :: cs else cs) zeroB
    (by split <;> simp [Nat.lt_succ_iff]) hdig zeroB_wf rfl
  have hv0mag : magVal v0.dig = decVal (if isdigitC c then c :: cs else cs) := by
    rw [hv0val]
    simp [zeroB, magVal]
  rw [ofString_cons_red c cs v0 hguard hv0]
  set ds := if isdigitC c then c :: cs else cs with hds
  by_cases h0 : decVal ds = 0
  · have hm0 : magVal v0.dig = 0 := by rw [hv0mag, h0]
    have hdig0 : v0.dig = [0] := by
      have := norm_uniq v0.dig [0] hv0w.1
        ⟨List.cons_ne_nil _ _, fun x hx => by
          rcases List.mem_singleton.mp hx with rfl
          positivity, fun _ => rfl⟩ (by rw [hm0]; simp [magVal])
      exact this
    have hz : is_zero (⟨decide (c ≠ '-'), v0.dig⟩ : big_integer) = true := by
      unfold is_zero
      rw [hdig0]
      rfl
    rw [hz]
    refine ⟨⟨true, v0.dig⟩, by simp, ?_, ?_, ?_⟩
    · exact ⟨hv0w.1, fun _ => rfl⟩
    · exact hv0mag
    · simp [h0]
  · have hm0 : magVal v0.dig ≠ 0 := by rw [hv0mag]; exact h0
    have hdig0 : v0.dig ≠ [0] := by
      intro hc
      apply hm0
      rw [hc]
      simp [magVal]
    have hz : is_zero (⟨decide (c ≠ '-'), v0.dig⟩ : big_integer) = false := by
      unfold is_zero
      rcases hv0w.1 with ⟨hne, hbd, hlast⟩
      cases hd : v0.dig with
      | nil => exact absurd hd hne
      | cons x xs =>
        cases xs with
        | nil =>
          simp only [List.length_cons, List.length_nil, List.headD]
          have hx0 : x ≠ 0 := by
            intro hx
            apply hdig0
            rw [hd, hx]
          simp [hx0]
        | cons y ys => simp
    rw [hz]
    refine ⟨⟨decide (c ≠ '-'), v0.dig⟩, by simp, ?_, ?_, ?_⟩
    · refine ⟨hv0w.1, fun hc => absurd hc hdig0⟩
    · exact hv0mag
    · simp only [decide_eq_false_iff_not, Decidable.not_not]
      constructor
      · intro hminus
        refine ⟨?_, h0⟩
        by_contra hcm
        revert hminus
        simp [hcm]
      · rintro ⟨hcm, -⟩
        simp [hcm]

/-! ### Decimal printing: `toDecRev` and `decChars` -/

theorem toDecRev_fuel : ∀ (f1 f2 n : Nat), n < 10 ^ f1 → n < 10 ^ f2 →
    1 ≤ f1 → 1 ≤ f2 → toDecRev f1 n = toDecRev f2 n
  | 0, _, _, _, _, h, _ => absurd h (by omega)
  | _ + 1, 0, _, _, _, _, h => absurd h (by omega)
  | f1 + 1, f2 + 1, n, h1, h2, _, _ => by
    by_cases hn : n < 10
    · rw [toDecRev, if_pos hn, toDecRev, if_pos hn]
    · rw [toDecRev, if_neg hn, toDecRev, if_neg hn]
      congr 1
      have hf1 : 1 ≤ f1 := by
        rcases Nat.eq_zero_or_pos f1 with hz | hp
        · rw [hz, pow_one] at h1
          omega
        · exact hp
      have hf2 : 1 ≤ f2 := by
        rcases Nat.eq_zero_or_pos f2 with hz | hp
        · rw [hz, pow_one] at h2
          omega
        · exact hp
      have hd1 : n / 10 < 10 ^ f1 := by
        rw [Nat.div_lt_iff_lt_mul (by norm_num)]
        rw [← pow_succ]
        exact h1
      have hd2 : n / 10 < 10 ^ f2 := by
        rw [Nat.div_lt_iff_lt_mul (by norm_num)]
        rw [← pow_succ]
        exact h2
      exact toDecRev_fuel f1 f2 (n / 10) hd1 hd2 hf1 hf2

theorem toDecRev_split : ∀ (e : Nat) (q r f g : Nat), 1 ≤ q → r < 10 ^ e →
    q * 10 ^ e + r < 10 ^ f → q < 10 ^ g → 1 ≤ f → 1 ≤ g →
    toDecRev f (q * 10 ^ e + r) =
      (toDecRev e r ++ List.replicate (e - (toDecRev e r).length) '0') ++ toDecRev g q
  | 0, q, r, f, g, hq, hr, hf, hg, hf1, hg1 => by
    have h01 : (10:Nat) ^ 0 = 1 := pow_zero 10
    have hr0 : r = 0 := by omega
    subst hr0
    rw [show toDecRev 0 0 = [] from rfl]
    simp only [List.nil_append, List.length_nil, Nat.sub_zero, List.replicate,
      List.nil_append]
    rw [show q * 10 ^ 0 + 0 = q from by simp]
    rw [show q * 10 ^ 0 + 0 = q from by simp] at hf
    exact toDecRev_fuel f g q hf hg hf1 hg1
  | e + 1, q, r, f, g, hq, hr, hf, hg, hf1, hg1 => by
    have h10e : (10:Nat) ≤ 10 ^ (e + 1) := by
      calc (10:Nat) = 10 ^ 1 := (pow_one 10).symm
        _ ≤ 10 ^ (e + 1) := Nat.pow_le_pow_right (by norm_num) (by omega)
    have hq10 : 10 ^ (e + 1) ≤ q * 10 ^ (e + 1) := Nat.le_mul_of_pos_left _ hq
    have hn10 : ¬(q * 10 ^ (e + 1) + r < 10) := by omega
    obtain ⟨f2, rfl⟩ : ∃ f2, f = f2 + 1 := ⟨f - 1, by omega⟩
    rw [toDecRev, if_neg hn10]
    have hmod : (q * 10 ^ (e + 1) + r) % 10 = r % 10 := by
      rw [show q * 10 ^ (e + 1) = q * 10 ^ e * 10 from by rw [pow_succ, ← mul_assoc]]
      rw [Nat.mul_comm (q * 10 ^ e) 10]
      exact Nat.mul_add_mod 10 _ _
    have hdiv : (q * 10 ^ (e + 1) + r) / 10 = q * 10 ^ e + r / 10 := by
      rw [show q * 10 ^ (e + 1) = 10 * (q * 10 ^ e) from by rw [pow_succ]; ring]
      exact Nat.mul_add_div (by norm_num) _ _
    rw [hmod, hdiv]
    have hf21 : 1 ≤ f2 := by
      rcases Nat.eq_zero_or_pos f2 with hz | hp
      · rw [hz, pow_one] at hf
        omega
      · exact hp
    have hrede : r / 10 < 10 ^ e := by
      rw [Nat.div_lt_iff_lt_mul (by norm_num), ← pow_succ]
      exact hr
    have hdivlt : q * 10 ^ e + r / 10 < 10 ^ f2 := by
      rw [← hdiv, Nat.div_lt_iff_lt_mul (by norm_num), ← pow_succ]
      exact hf
    rw [toDecRev_split e q (r / 10) f2 g hq hrede hdivlt hg hf21 hg1]
    by_cases hr10 : r < 10
    · have hrm : r % 10 = r := Nat.mod_eq_of_lt hr10
      have hrd : r / 10 = 0 := Nat.div_eq_of_lt hr10
      rw [hrm, hrd]
      rw [show toDecRev (e + 1) r = [decDigit r] from by rw [toDecRev, if_pos hr10]]
      cases e with
      | zero =>
        simp [toDecRev]
      | succ e2 =>
        rw [show toDecRev (e2 + 1) 0 = [decDigit 0] from by
          rw [toDecRev, if_pos (by norm_num)]]
        rw [show decDigit 0 = '0' from by decide]
        simp only [List.length_cons, List.length_nil, List.singleton_append,
          List.length_singleton]
        rw [show e2 + 1 - 1 = e2 from by omega, show e2 + 1 + 1 - 1 = e2 + 1 from by omega]
        rw [show ('0' :: List.replicate e2 '0' : List Char) = List.replicate (e2 + 1) '0' from
          (List.replicate_succ '0' e2).symm]
        simp [List.cons_append]
    · rw [show toDecRev (e + 1) r = decDigit (r % 10) :: toDecRev e (r / 10) from by
        rw [toDecRev, if_neg hr10]]
      simp only [List.length_cons, List.cons_append]
      rw [show e + 1 - (toDecRev e (r / 10)).length.succ = e - (toDecRev e (r / 10)).length
        from by omega]

theorem decDigit_dval (c : Char) (h : isdigitC c = true) : decDigit (dval c) = c := by
  unfold decDigit dval
  have := isdigit_toNat c h
  rw [show 48 + (c.toNat - 48) = c.toNat from by omega]
  exact Char.ofNat_toNat c

theorem char_eq_zero_of_toNat (c : Char) (h : c.toNat = 48) : c = '0' := by
  have := Char.ofNat_toNat c
  rw [h] at this
  rw [← this]

theorem dval_eq_zero (c : Char) (hd : isdigitC c = true) (h : dval c = 0) : c = '0' := by
  have := isdigit_toNat c hd
  unfold dval at h
  exact char_eq_zero_of_toNat c (by omega)

theorem dval_pos (c : Char) (hd : isdigitC c = true) (h : c ≠ '0') : 1 ≤ dval c := by
  rcases Nat.eq_zero_or_pos (dval c) with hz | hp
  · exact absurd (dval_eq_zero c hd hz) h
  · exact hp

theorem decVal_all_zero : ∀ (l : List Char), (∀ x ∈ l, isdigitC x = true) →
    decVal l = 0 → ∀ x ∈ l, x = '0'
  | [], _, _, x, hx => absurd hx (List.not_mem_nil x)
  | c :: cs, hd, h0, x, hx => by
    rw [decVal_cons] at h0
    have hpow : 1 ≤ 10 ^ cs.length := Nat.one_le_pow _ _ (by norm_num)
    have hb : dval c * 10 ^ cs.length = 0 := by omega
    have hc : dval c = 0 := by
      rcases Nat.mul_eq_zero.mp hb with h | h
      · exact h
      · omega
    have hcs : decVal cs = 0 := by omega
    rcases List.mem_cons.mp hx with rfl | hx
    · exact dval_eq_zero x (hd x (List.mem_cons_self _ _)) hc
    · exact decVal_all_zero cs (fun y hy => hd y (List.mem_cons_of_mem _ hy)) hcs x hx

theorem decVal_zeros : ∀ (l : List Char), (∀ x ∈ l, x = '0') → decVal l = 0
  | [], _ => rfl
  | c :: cs, h => by
    rw [decVal_cons]
    rw [h c (List.mem_cons_self _ _)]
    rw [show dval '0' = 0 from rfl]
    rw [decVal_zeros cs (fun y hy => h y (List.mem_cons_of_mem _ hy))]
    simp

theorem toDecRev_round : ∀ (l : List Char) (f : Nat), (∀ x ∈ l, isdigitC x = true) →
    l.getLast? ≠ some '0' → l ≠ [] → l.length ≤ f →
    toDecRev f (decVal l.reverse) = l
  | [], _, _, _, hne, _ => absurd rfl hne
  | [c], f, hd, hlast, _, hf => by
    have hc : isdigitC c = true := hd c (List.mem_cons_self _ _)
    have hcv : decVal ([c] : List Char).reverse = dval c := by
      show decVal [c] = dval c
      rw [decVal_cons]
      simp [decVal]
    have hfge : 1 ≤ f := by simp only [List.length_cons, List.length_nil] at hf; omega
    obtain ⟨f2, rfl⟩ : ∃ f2, f = f2 + 1 := ⟨f - 1, by omega⟩
    have hlt : dval c < 10 := by have := dval_le c hc; omega
    rw [hcv, toDecRev, if_pos hlt]
    rw [decDigit_dval c hc]
  | c :: c2 :: cs, f, hd, hlast, _, hf => by
    have hc : isdigitC c = true := hd c (List.mem_cons_self _ _)
    have hdcs : ∀ x ∈ c2 :: cs, isdigitC x = true :=
      fun y hy => hd y (List.mem_cons_of_mem _ hy)
    have hlast2 : (c2 :: cs).getLast? ≠ some '0' := by
      intro hx
      apply hlast
      rw [List.getLast?_cons_cons]
      exact hx
    have hq1 : 1 ≤ decVal (c2 :: cs).reverse := by
      rcases Nat.eq_zero_or_pos (decVal (c2 :: cs).reverse) with hz | hp
      · exfalso
        have hall := decVal_all_zero (c2 :: cs).reverse
          (fun y hy => hdcs y (List.mem_reverse.mp hy)) hz
        have hmem : (c2 :: cs).getLast (List.cons_ne_nil _ _) ∈ c2 :: cs :=
          List.getLast_mem _
        have h0 : (c2 :: cs).getLast (List.cons_ne_nil _ _) = '0' :=
          hall _ (List.mem_reverse.mpr hmem)
        rw [List.getLast?_eq_getLast _ (List.cons_ne_nil _ _)] at hlast2
        rw [h0] at hlast2
        exact hlast2 rfl
      · exact hp
    have hval : decVal (c :: c2 :: cs).reverse = decVal (c2 :: cs).reverse * 10 + dval c := by
      rw [List.reverse_cons, decVal_append]
      simp only [List.length_cons, List.length_nil, List.length_singleton]
      rw [decVal_cons]
      simp [decVal]
    have hfge : 1 ≤ f := by simp only [List.length_cons, List.length_nil] at hf; omega
    obtain ⟨f2, rfl⟩ : ∃ f2, f = f2 + 1 := ⟨f - 1, by omega⟩
    have hd10 : dval c < 10 := by have := dval_le c hc; omega
    have hge : ¬(decVal (c2 :: cs).reverse * 10 + dval c < 10) := by
      have : 10 ≤ decVal (c2 :: cs).reverse * 10 := by omega
      omega
    rw [hval, toDecRev, if_neg hge]
    have hmod : (decVal (c2 :: cs).reverse * 10 + dval c) % 10 = dval c := by
      rw [Nat.mul_comm, Nat.mul_add_mod]
      exact Nat.mod_eq_of_lt hd10
    have hdiv : (decVal (c2 :: cs).reverse * 10 + dval c) / 10 = decVal (c2 :: cs).reverse := by
      rw [Nat.mul_comm]
      rw [Nat.mul_add_div (by norm_num)]
      rw [Nat.div_eq_of_lt hd10, Nat.add_zero]
    rw [hmod, hdiv, decDigit_dval c hc]
    rw [toDecRev_round (c2 :: cs) f2 hdcs hlast2 (List.cons_ne_nil _ _)
      (by simp only [List.length_cons] at hf ⊢; omega)]

theorem decChars_zero : decChars 0 = ['0'] := by decide

theorem decChars_core (core : List Char) (hd : ∀ x ∈ core, isdigitC x = true)
    (hne : core ≠ []) (hhead : core.head? ≠ some '0') :
    decChars (decVal core) = core := by
  unfold decChars
  have hlt1 : decVal core < 10 ^ (decVal core + 1) := by
    calc decVal core < 10 ^ decVal core := Nat.lt_pow_self (by norm_num) _
      _ ≤ 10 ^ (decVal core + 1) := Nat.pow_le_pow_right (by norm_num) (by omega)
  have hlt2 : decVal core < 10 ^ core.reverse.length := by
    rw [List.length_reverse]
    exact decVal_lt core hd
  have hc1 : 1 ≤ core.reverse.length := by
    rcases core with _ | ⟨x, xs⟩
    · exact absurd rfl hne
    · simp
  have hfuel := toDecRev_fuel (decVal core + 1) core.reverse.length (decVal core)
    hlt1 hlt2 (by omega) hc1
  have hround := toDecRev_round core.reverse core.reverse.length
    (fun y hy => hd y (List.mem_reverse.mp hy))
    (by rw [List.getLast?_reverse]; exact hhead)
    (by simp only [ne_eq, List.reverse_eq_nil_iff]; exact hne) le_rfl
  rw [List.reverse_reverse] at hround
  rw [hfuel, hround, List.reverse_reverse]

theorem dropWhile_head_false : ∀ (p : Char → Bool) (l : List Char) (c : Char)
    (rest : List Char), l.dropWhile p = c :: rest → p c = false
  | p, [], c, rest, h => List.noConfusion h
  | p, x :: xs, c, rest, h => by
    rw [List.dropWhile] at h
    by_cases hp : p x
    · rw [hp] at h
      exact dropWhile_head_false p xs c rest h
    · have hpx : p x = false := by
        cases hpb : p x
        · rfl
        · exact absurd hpb hp
      rw [hpx] at h
      simp only at h
      injection h with h1 h2
      rw [← h1]
      exact hpx

theorem decVal_dropWhile (ds : List Char) (hd : ∀ x ∈ ds, isdigitC x = true) :
    decVal ds = decVal (ds.dropWhile (fun x => x = '0')) := by
  conv_lhs => rw [← List.takeWhile_append_dropWhile (fun x => decide (x = '0')) ds]
  rw [decVal_append]
  have hz : decVal (ds.takeWhile (fun x => decide (x = '0'))) = 0 := by
    apply decVal_zeros
    intro x hx
    have := List.mem_takeWhile_imp hx
    exact of_decide_eq_true this
  rw [hz]
  simp

theorem decChars_drop (ds : List Char) (hd : ∀ x ∈ ds, isdigitC x = true) :
    decChars (decVal ds) =
      (if ds.dropWhile (fun x => x = '0') = [] then ['0']
       else ds.dropWhile (fun x => x = '0')) := by
  rw [decVal_dropWhile ds hd]
  rcases hdw : ds.dropWhile (fun x => x = '0') with _ | ⟨c, rest⟩
  · simp only [if_pos]
    rw [show decVal ([] : List Char) = 0 from rfl]
    exact decChars_zero
  · simp only [if_neg (List.cons_ne_nil c rest)]
    have hmem : ∀ x ∈ c :: rest, isdigitC x = true := by
      intro x hx
      apply hd
      have := List.dropWhile_sublist (l := ds) (p := fun x => decide (x = '0'))
      rw [hdw] at this
      exact this.mem hx
    have hhd : (c :: rest).head? ≠ some '0' := by
      have hcf := dropWhile_head_false _ ds c rest hdw
      simp only [List.head?_cons, ne_eq, Option.some.injEq]
      intro hc
      rw [hc] at hcf
      simp at hcf
    exact decChars_core (c :: rest) hmem (List.cons_ne_nil _ _) hhd

theorem decVal_drop_ne_zero (ds : List Char) (hd : ∀ x ∈ ds, isdigitC x = true) :
    decVal ds = 0 ↔ ds.dropWhile (fun x => x = '0') = [] := by
  rw [decVal_dropWhile ds hd]
  constructor
  · intro h0
    rcases hdw : ds.dropWhile (fun x => x = '0') with _ | ⟨c, rest⟩
    · rfl
    · exfalso
      rw [hdw, decVal_cons] at h0
      have hcf := dropWhile_head_false _ ds c rest hdw
      have hcd : isdigitC c = true := by
        apply hd
        have := List.dropWhile_sublist (l := ds) (p := fun x => decide (x = '0'))
        rw [hdw] at this
        exact this.mem (List.mem_cons_self _ _)
      have h1 : 1 ≤ dval c := by
        apply dval_pos c hcd
        intro hc
        rw [hc] at hcf
        simp at hcf
      have hpow : 1 ≤ 10 ^ rest.length := Nat.one_le_pow _ _ (by norm_num)
      have : 1 ≤ dval c * 10 ^ rest.length := Nat.mul_pos h1 hpow
      omega
  · intro h
    rw [h]
    rfl

/-! ### Short division -/

theorem dmsLoop_cons (w d : Nat) (ds : List Nat) (rem : Nat) :
    dmsLoop w (d :: ds) rem =
      ((rem * 2 ^ 32 % 2 ^ 64 + d) % 2 ^ 64 / w % 2 ^ 32 ::
        (dmsLoop w ds (((rem * 2 ^ 32 % 2 ^ 64 + d) % 2 ^ 64 + 2 ^ 64 -
          (rem * 2 ^ 32 % 2 ^ 64 + d) % 2 ^ 64 / w % 2 ^ 32 * w % 2 ^ 32) % 2 ^ 64)).1,
      (dmsLoop w ds (((rem * 2 ^ 32 % 2 ^ 64 + d) % 2 ^ 64 + 2 ^ 64 -
          (rem * 2 ^ 32 % 2 ^ 64 + d) % 2 ^ 64 / w % 2 ^ 32 * w % 2 ^ 32) % 2 ^ 64)).2) :=
  rfl

theorem dmsLoop_spec : ∀ (ds : List Nat) (w H s : Nat), (∀ x ∈ ds, x < 2 ^ 32) →
    1 ≤ w → w ≤ 2 ^ 32 → s < w → H < 2 ^ 32 →
    magVal (dmsLoop w ds (H * 2 ^ 32 + s)).1.reverse =
        (s * 2 ^ (32 * ds.length) + magVal ds.reverse) / w
      ∧ (dmsLoop w ds (H * 2 ^ 32 + s)).2 % 2 ^ 32 =
        (s * 2 ^ (32 * ds.length) + magVal ds.reverse) % w
      ∧ boundedW (dmsLoop w ds (H * 2 ^ 32 + s)).1
      ∧ (dmsLoop w ds (H * 2 ^ 32 + s)).1.length = ds.length
  | [], w, H, s, _, hw1, hw2, hs, hH => by
    rw [show dmsLoop w [] (H * 2 ^ 32 + s) = ([], H * 2 ^ 32 + s) from rfl]
    refine ⟨?_, ?_, ?_, rfl⟩
    · simp only [List.reverse_nil, List.length_nil, Nat.mul_zero, pow_zero, Nat.mul_one]
      rw [show magVal [] = 0 from rfl]
      rw [Nat.div_eq_of_lt (by omega)]
    · simp only [List.reverse_nil, List.length_nil, Nat.mul_zero, pow_zero, Nat.mul_one]
      rw [show magVal [] = 0 from rfl]
      rw [Nat.add_zero, Nat.mod_eq_of_lt (show s < w from hs)]
      omega
    · intro x hx
      exact absurd hx (List.not_mem_nil x)
  | d :: ds, w, H, s, hbd, hw1, hw2, hs, hH => by
    have hd32 : d < 2 ^ 32 := hbd d (List.mem_cons_self _ _)
    have hr1 : ((H * 2 ^ 32 + s) * 2 ^ 32 % 2 ^ 64 + d) % 2 ^ 64 = s * 2 ^ 32 + d := by
      omega
    set r1 := s * 2 ^ 32 + d with hr1def
    have hr1w : r1 < 2 ^ 32 * w := by
      have : s + 1 ≤ w := hs
      calc r1 < (s + 1) * 2 ^ 32 := by rw [hr1def]; omega
        _ ≤ w * 2 ^ 32 := Nat.mul_le_mul_right _ this
        _ = 2 ^ 32 * w := Nat.mul_comm _ _
    have hq32 : r1 / w < 2 ^ 32 := by
      rw [Nat.div_lt_iff_lt_mul (by omega)]
      exact hr1w
    have hqmod : r1 / w % 2 ^ 32 = r1 / w := Nat.mod_eq_of_lt hq32
    set q := r1 / w with hqdef
    set s2 := r1 % w with hs2def
    have hqw : w * q + s2 = r1 := by rw [hqdef, hs2def]; exact Nat.div_add_mod r1 w
    have hcomm : w * q = q * w := Nat.mul_comm w q
    have hs2w : s2 < w := by rw [hs2def]; exact Nat.mod_lt _ (by omega)
    have hqwlt : q * w < 2 ^ 64 := by
      have h1 : q * w ≤ r1 := by omega
      have h2 : r1 < 2 ^ 64 := by
        calc r1 < 2 ^ 32 * w := hr1w
          _ ≤ 2 ^ 32 * 2 ^ 32 := Nat.mul_le_mul_left _ hw2
          _ = 2 ^ 64 := by norm_num
      omega
    set H2 := q * w / 2 ^ 32 with hH2def
    have hH2 : H2 < 2 ^ 32 := by
      rw [hH2def, Nat.div_lt_iff_lt_mul (by positivity)]
      calc q * w < 2 ^ 64 := hqwlt
        _ = 2 ^ 32 * 2 ^ 32 := by norm_num
    have hr2 : (r1 + 2 ^ 64 - q * w % 2 ^ 32) % 2 ^ 64 = H2 * 2 ^ 32 + s2 := by
      omega
    obtain ⟨ihq, ihr, ihb, ihl⟩ := dmsLoop_spec ds w H2 s2
      (fun x hx => hbd x (List.mem_cons_of_mem _ hx)) hw1 hw2 hs2w hH2
    rw [dmsLoop_cons, hr1, ← hqdef, hqmod, hr2]
    have hmagcons : magVal (d :: ds).reverse =
        magVal ds.reverse + 2 ^ (32 * ds.length) * d := by
      rw [List.reverse_cons, magVal_append, List.length_reverse]
      simp [magVal]
    have hN : s * 2 ^ (32 * (d :: ds).length) + magVal (d :: ds).reverse =
        q * 2 ^ (32 * ds.length) * w +
          (s2 * 2 ^ (32 * ds.length) + magVal ds.reverse) := by
      rw [hmagcons, List.length_cons,
        show 32 * (ds.length + 1) = 32 * ds.length + 32 from by ring, pow_add]
      have h12 : s * 2 ^ 32 + d = q * w + s2 := by omega
      calc s * (2 ^ (32 * ds.length) * 2 ^ 32) +
            (magVal ds.reverse + 2 ^ (32 * ds.length) * d)
          = (s * 2 ^ 32 + d) * 2 ^ (32 * ds.length) + magVal ds.reverse := by ring
        _ = (q * w + s2) * 2 ^ (32 * ds.length) + magVal ds.reverse := by rw [h12]
        _ = q * 2 ^ (32 * ds.length) * w +
            (s2 * 2 ^ (32 * ds.length) + magVal ds.reverse) := by ring
    refine ⟨?_, ?_, ?_, ?_⟩
    · rw [List.reverse_cons, magVal_append, ihq, List.length_reverse, ihl, hN]
      rw [show q * 2 ^ (32 * ds.length) * w +
            (s2 * 2 ^ (32 * ds.length) + magVal ds.reverse) =
          s2 * 2 ^ (32 * ds.length) + magVal ds.reverse +
            q * 2 ^ (32 * ds.length) * w from by ring]
      rw [Nat.add_mul_div_right _ _ (show 0 < w from by omega)]
      rw [show magVal [q] = q from by simp [magVal]]
      ring
    · rw [hN, show q * 2 ^ (32 * ds.length) * w +
            (s2 * 2 ^ (32 * ds.length) + magVal ds.reverse) =
          w * (q * 2 ^ (32 * ds.length)) +
            (s2 * 2 ^ (32 * ds.length) + magVal ds.reverse) from by ring]
      rw [Nat.mul_add_mod w _ _]
      exact ihr
    · intro x hx
      rcases List.mem_cons.mp hx with rfl | hx
      · exact hq32
      · exact ihb x hx
    · simp only [List.length_cons, ihl]

theorem div_mod_short_spec (a : big_integer) (w : Nat) (hb : boundedW a.dig)
    (hne : a.dig ≠ []) (hw1 : 1 ≤ w) (hw2 : w ≤ 2 ^ 32) :
    magVal (div_mod_short a w).1.dig = magVal a.dig / w ∧
    (div_mod_short a w).2 = magVal a.dig % w ∧ WfB (div_mod_short a w).1 ∧
    (div_mod_short a w).1.sign = true := by
  have hspec := dmsLoop_spec a.dig.reverse w 0 0
    (fun x hx => hb x (List.mem_reverse.mp hx)) hw1 hw2 (by omega) (by positivity)
  rw [show (0:Nat) * 2 ^ 32 + 0 = 0 from by ring] at hspec
  obtain ⟨hq, hr, hbd, hl⟩ := hspec
  rw [List.reverse_reverse] at hq hr
  simp only [Nat.zero_mul, Nat.zero_add] at hq hr
  unfold div_mod_short
  refine ⟨?_, ?_, ?_, ?_⟩
  · rw [normalize_magVal]
    exact hq
  · exact hr
  · apply normalize_wf
    · intro hc
      rw [List.reverse_eq_nil_iff] at hc
      rw [hc] at hl
      simp only [List.length_nil] at hl
      rw [List.length_reverse] at hl
      exact hne (List.eq_nil_of_length_eq_zero hl.symm)
    · intro x hx
      exact hbd x (List.mem_reverse.mp hx)
  · rw [normalize_sign]
    split
    · rfl
    · rfl

/-! ### Serialization -/

theorem decChars_split (q r : Nat) (hq : 1 ≤ q) (hr : r < 1000000000) :
    decChars (q * 1000000000 + r) =
      decChars q ++ List.replicate (9 - (toDecRev 10 r).length) '0' ++
        (toDecRev 10 r).reverse := by
  have h9 : (1000000000:Nat) = 10 ^ 9 := by norm_num
  rw [h9] at hr ⊢
  unfold decChars
  have hf : q * 10 ^ 9 + r < 10 ^ (q * 10 ^ 9 + r + 1) := by
    calc q * 10 ^ 9 + r < 10 ^ (q * 10 ^ 9 + r) := Nat.lt_pow_self (by norm_num) _
      _ ≤ 10 ^ (q * 10 ^ 9 + r + 1) := Nat.pow_le_pow_right (by norm_num) (by omega)
  have hg : q < 10 ^ (q + 1) := by
    calc q < 10 ^ q := Nat.lt_pow_self (by norm_num) _
      _ ≤ 10 ^ (q + 1) := Nat.pow_le_pow_right (by norm_num) (by omega)
  have hsplit := toDecRev_split 9 q r (q * 10 ^ 9 + r + 1) (q + 1) hq hr hf hg
    (by omega) (by omega)
  rw [hsplit]
  have h910 : toDecRev 9 r = toDecRev 10 r :=
    toDecRev_fuel 9 10 r hr (lt_trans hr (by norm_num)) (by omega) (by omega)
  rw [h910]
  simp [List.reverse_append, List.reverse_replicate, List.append_assoc]

theorem toStringLoop_succ (fuel : Nat) (a : big_integer) (nz : Nat) (res : List Char) :
    toStringLoop (fuel + 1) a nz res =
      (if compareB (div_mod_short a 1000000000).1 zeroB = 0 then
        res ++ (((toDecRev 10 (div_mod_short a 1000000000).2).reverse ++
          List.replicate nz '0').reverse)
      else toStringLoop fuel (div_mod_short a 1000000000).1
        (9 - ((toDecRev 10 (div_mod_short a 1000000000).2).reverse).length)
        (res ++ (((toDecRev 10 (div_mod_short a 1000000000).2).reverse ++
          List.replicate nz '0').reverse))) := rfl

theorem toStringLoop_spec : ∀ (fuel : Nat) (a : big_integer), WfB a → a.sign = true →
    1 ≤ magVal a.dig → magVal a.dig < 10 ^ (9 * fuel) →
    ∀ (nz : Nat) (res : List Char),
    toStringLoop fuel a nz res =
      res ++ (decChars (magVal a.dig) ++ List.replicate nz '0').reverse
  | 0, a, _, _, h1, h2, _, _ => by
    exfalso
    rw [Nat.mul_zero, pow_zero] at h2
    omega
  | fuel + 1, a, hw, hsgn, h1, h2, nz, res => by
    obtain ⟨hqv, hrv, hqw, hqs⟩ :=
      div_mod_short_spec a 1000000000 hw.1.2.1 hw.1.1 (by norm_num) (by norm_num)
    rw [toStringLoop_succ]
    by_cases hlt : magVal a.dig < 1000000000
    · have hq0 : magVal (div_mod_short a 1000000000).1.dig = 0 := by
        rw [hqv]
        exact Nat.div_eq_of_lt hlt
      rw [if_pos ((compare_zero_eq _ hqw).mpr hq0)]
      have hrem : (div_mod_short a 1000000000).2 = magVal a.dig := by
        rw [hrv]
        exact Nat.mod_eq_of_lt hlt
      rw [hrem]
      have hfe : toDecRev 10 (magVal a.dig) = toDecRev (magVal a.dig + 1) (magVal a.dig) :=
        toDecRev_fuel 10 (magVal a.dig + 1) (magVal a.dig)
          (by calc magVal a.dig < 1000000000 := hlt
              _ < 10 ^ 10 := by norm_num)
          (by calc magVal a.dig < 10 ^ magVal a.dig := Nat.lt_pow_self (by norm_num) _
              _ ≤ 10 ^ (magVal a.dig + 1) := Nat.pow_le_pow_right (by norm_num) (by omega))
          (by omega) (by omega)
      rw [hfe]
      rfl
    · have hq1 : 1 ≤ magVal (div_mod_short a 1000000000).1.dig := by
        rw [hqv]
        rw [Nat.one_le_div_iff (by norm_num)]
        omega
      have hcne : ¬(compareB (div_mod_short a 1000000000).1 zeroB = 0) := by
        rw [compare_zero_eq _ hqw]
        omega
      rw [if_neg hcne]
      have hqlt : magVal (div_mod_short a 1000000000).1.dig < 10 ^ (9 * fuel) := by
        rw [hqv]
        rw [Nat.div_lt_iff_lt_mul (by norm_num)]
        calc magVal a.dig < 10 ^ (9 * (fuel + 1)) := h2
          _ = 10 ^ (9 * fuel) * 10 ^ 9 := by
              rw [show 9 * (fuel + 1) = 9 * fuel + 9 from by ring, pow_add]
          _ = 10 ^ (9 * fuel) * 1000000000 := by norm_num
      rw [toStringLoop_spec fuel (div_mod_short a 1000000000).1 hqw hqs hq1 hqlt _ _]
      rw [hqv, hrv]
      have hdc : decChars (magVal a.dig) =
          decChars (magVal a.dig / 1000000000) ++
            List.replicate (9 - (toDecRev 10 (magVal a.dig % 1000000000)).length) '0' ++
            (toDecRev 10 (magVal a.dig % 1000000000)).reverse := by
        conv_lhs => rw [← Nat.div_add_mod' (magVal a.dig) 1000000000]
        exact decChars_split _ _ (by rw [Nat.one_le_div_iff (by norm_num)]; omega)
          (Nat.mod_lt _ (by norm_num))
      rw [hdc]
      simp [List.reverse_append, List.reverse_reverse, List.reverse_replicate,
        List.append_assoc, List.length_reverse]

theorem to_string_spec (a : big_integer) (h : WfB a) :
    to_string a = (if a.sign = true then [] else ['-']) ++ decChars (magVal a.dig) := by
  by_cases hz : magVal a.dig = 0
  · have hdig : a.dig = [0] :=
      norm_uniq a.dig [0] h.1 (by decide) (by rw [hz]; simp [magVal])
    have hsgn : a.sign = true := h.2 hdig
    have ha : a = ⟨true, [0]⟩ := by
      rcases a with ⟨s, d⟩
      simp only at hdig hsgn
      rw [hdig, hsgn]
    rw [ha]
    rw [show magVal (⟨true, [0]⟩ : big_integer).dig = 0 from rfl]
    decide
  · have h1 : 1 ≤ magVal a.dig := Nat.one_le_iff_ne_zero.mpr hz
    rw [show to_string a = (toStringLoop (2 * (absB a).dig.length + 2) (absB a) 0 [] ++
      (if positive a = true then ([] : List Char) else ['-'])).reverse from rfl]
    rw [absB_eq a h]
    have hw0 : WfB (⟨true, a.dig⟩ : big_integer) := ⟨h.1, fun _ => rfl⟩
    have hbound : magVal (⟨true, a.dig⟩ : big_integer).dig <
        10 ^ (9 * (2 * (⟨true, a.dig⟩ : big_integer).dig.length + 2)) := by
      show magVal a.dig < 10 ^ (9 * (2 * a.dig.length + 2))
      calc magVal a.dig < 2 ^ (32 * a.dig.length) := magVal_lt _ h.1.2.1
        _ = (2 ^ 32) ^ a.dig.length := by rw [← pow_mul]
        _ ≤ (10 ^ 10) ^ a.dig.length := Nat.pow_le_pow_left (by norm_num) _
        _ = 10 ^ (10 * a.dig.length) := by rw [← pow_mul]
        _ ≤ 10 ^ (9 * (2 * a.dig.length + 2)) :=
            Nat.pow_le_pow_right (by norm_num) (by omega)
    rw [toStringLoop_spec _ _ hw0 rfl h1 hbound 0 []]
    cases hs : a.sign
    · rw [show positive a = false from hs]
      simp [List.reverse_append]
    · rw [show positive a = true from hs]
      simp [List.reverse_append]

/-- C5: for every input matching `[+-]?[0-9]+`, serializing the parsed value
yields the canonical decimal form of the input — leading zeros stripped
down to a single `0`, and a leading `-` exactly when the value is
negative. -/
theorem claim_C5 (c : Char) (cs : List Char)
    (hsign : c = '-' ∨ c = '+' ∨ isdigitC c = true)
    (hdig : ∀ x ∈ (if isdigitC c then c :: cs else cs), isdigitC x = true) :
    Option.map to_string (ofString (c :: cs)) = some (canonicalStr c cs) := by
  obtain ⟨v, hv, hw, hmag, hsgn⟩ := ofString_val c cs hsign hdig
  rw [hv, Option.map_some']
  congr 1
  rw [to_string_spec v hw, hmag]
  rw [decChars_drop _ hdig]
  have hcanon : canonicalStr c cs =
      (if c = '-' ∧ ((if isdigitC c then c :: cs else cs).dropWhile (fun x => x = '0')) ≠ []
       then '-' ::
        (if ((if isdigitC c then c :: cs else cs).dropWhile (fun x => x = '0')) = []
          then ['0']
          else ((if isdigitC c then c :: cs else cs).dropWhile (fun x => x = '0')))
       else
        (if ((if isdigitC c then c :: cs else cs).dropWhile (fun x => x = '0')) = []
          then ['0']
          else ((if isdigitC c then c :: cs else cs).dropWhile (fun x => x = '0')))) := rfl
  rw [hcanon]
  by_cases hb : ((if isdigitC c then c :: cs else cs).dropWhile (fun x => x = '0')) = []
  · have h0 : decVal (if isdigitC c then c :: cs else cs) = 0 :=
      (decVal_drop_ne_zero _ hdig).mpr hb
    have hst : v.sign = true := by
      rcases Bool.eq_false_or_eq_true v.sign with ht | hf
      · exact ht
      · exact absurd (hsgn.mp hf).2 (by simp [h0])
    have hnc : ¬(c = '-' ∧
        ((if isdigitC c then c :: cs else cs).dropWhile (fun x => x = '0')) ≠ []) := by
      rintro ⟨-, hne⟩
      exact hne hb
    rw [hst, if_pos rfl, if_pos hb, if_neg hnc]
    simp
  · have h0 : decVal (if isdigitC c then c :: cs else cs) ≠ 0 := by
      intro hc
      exact hb ((decVal_drop_ne_zero _ hdig).mp hc)
    by_cases hcm : c = '-'
    · have hsf : v.sign = false := hsgn.mpr ⟨hcm, h0⟩
      have hcond : c = '-' ∧
          ((if isdigitC c then c :: cs else cs).dropWhile (fun x => x = '0')) ≠ [] :=
        ⟨hcm, hb⟩
      rw [hsf]
      rw [if_neg (show ¬(false = true) from by simp)]
      rw [if_neg hb, if_pos hcond]
      rfl
    · have hst : v.sign = true := by
        rcases Bool.eq_false_or_eq_true v.sign with ht | hf
        · exact ht
        · exact absurd (hsgn.mp hf).1 hcm
      have hnc : ¬(c = '-' ∧
          ((if isdigitC c then c :: cs else cs).dropWhile (fun x => x = '0')) ≠ []) := by
        rintro ⟨hc, -⟩
        exact hcm hc
      rw [hst, if_pos rfl, if_neg hb, if_neg hnc]
      simp

theorem claim_C5_witness :
    (('-' : Char) = '-' ∨ ('-' : Char) = '+' ∨ isdigitC '-' = true) ∧
    (∀ x ∈ (if isdigitC '-' then ['-', '0', '1', '7'] else ['0', '1', '7']),
      isdigitC x = true) ∧
    Option.map to_string (ofString ['-', '0', '1', '7']) =
      some (canonicalStr '-' ['0', '1', '7']) :=
  ⟨Or.inl rfl, by decide, claim_C5 '-' ['0', '1', '7'] (Or.inl rfl) (by decide)⟩

end Bigint